import Mathlib

/-
Verification development for the money-sanitizer repository
(src/sanitize-ofx.py).

Modelling conventions:
* A Python `str` is modelled as `List Char` (a Python string is a sequence
  of Unicode code points).  Concrete literals are written `"...".data`.
* Python `float` is modelled by `PyFloat`: an exact decimal magnitude
  `num × 10^exp` with a sign bit, plus infinity / NaN markers.  The
  acceptance grammar of `float(str)` (which decides whether `ValueError`
  is raised) is modelled exactly; the value of a finite float is modelled
  by the exact value of the literal.  Binary rounding of IEEE doubles is
  not modelled;
  every theorem below that depends on a numeric value only evaluates the
  model at inputs where the exact rational result and the IEEE result
  coincide.
* Functions that can raise an exception return `Option`; `none` models an
  uncaught exception escaping the function.
* `unicodedata.normalize("NFKD", text)` in `_ascii` is not modelled: the
  modelled `_ascii` is the pipeline applied after normalization, and every
  universal theorem about `_ascii` quantifies over the normalized string
  (hence covers all inputs, since the properties proved hold for every
  intermediate string).  Every concrete input used below is plain ASCII,
  on which NFKD is the identity.
* `logging` diagnostics are side effects without influence on the returned
  string; they are dropped from the model.
-/

/-! ### Basic character / string utilities -/

/-- Characters matched by Python's `\s` (and stripped by `str.strip()`)
within the ASCII range: space, `\t`, `\n`, `\v`, `\f`, `\r` and the
file/group/record/unit separators `\x1c`–`\x1f`. -/
def isPySpace (c : Char) : Bool :=
  c == ' ' || c == '\t' || c == '\n' || c == '\x0b' || c == '\x0c' ||
  c == '\r' || c == '\x1c' || c == '\x1d' || c == '\x1e' || c == '\x1f'

/-- Python `str.strip()`: drop whitespace from both ends. -/
def stripChars (t : List Char) : List Char :=
  ((t.dropWhile isPySpace).reverse.dropWhile isPySpace).reverse

/-- Python `str.split(sep)` for a one-character separator: the list of
fields; always non-empty. -/
def splitOnChar (sep : Char) : List Char → List (List Char)
  | [] => [[]]
  | c :: rest =>
    if c == sep then
      [] :: splitOnChar sep rest
    else
      match splitOnChar sep rest with
      | f :: fs => (c :: f) :: fs
      | [] => [[c]]

/-- Python `str.upper()` restricted to ASCII (every concrete tag below is
ASCII). -/
def toUpperList (t : List Char) : List Char :=
  t.map Char.toUpper

/-- Numeric value of a list of decimal digit characters. -/
def digitsToNat (l : List Char) : Nat :=
  l.foldl (fun a c => a * 10 + (c.toNat - 48)) 0

/-- The two-character zero-padded decimal rendering of `n % 100`
(`strftime` field `%m` / `%d` / `%y`). -/
def twoDigits (n : Nat) : List Char :=
  [Char.ofNat (48 + (n / 10) % 10), Char.ofNat (48 + n % 10)]

/-! ### `_ascii` (src/sanitize-ofx.py lines 60-68)

`unicodedata.normalize("NFKD", ...)` precedes `asciiDrop` in the source and
is handled by quantifying over the normalized string (see the header
comment). -/

/-- `normalized.encode("ascii", "ignore").decode("ascii", "ignore")`:
drop every code point outside 7-bit ASCII. -/
def asciiDrop (t : List Char) : List Char :=
  t.filter (fun c => c.toNat < 128)

/-- `.replace("\r", " ").replace("\n", " ").replace("^", " ")` acting on a
single character. -/
def crLfCaretToSpace (c : Char) : Char :=
  if c == '\r' || c == '\n' || c == '^' then ' ' else c

/-- Worker for `collapseWs`: `inRun` records whether the previous
character was whitespace (a single space is emitted at the start of each
whitespace run). -/
def collapseGo (inRun : Bool) : List Char → List Char
  | [] => []
  | c :: rest =>
    if isPySpace c then
      if inRun then collapseGo true rest else ' ' :: collapseGo true rest
    else c :: collapseGo false rest

/-- `re.sub(r"\s+", " ", cleaned)`: replace every maximal whitespace run by
a single space. -/
def collapseWs (l : List Char) : List Char :=
  collapseGo false l

/-- `_ascii` (lines 60-68), after NFKD normalization. -/
def _ascii (t : List Char) : List Char :=
  stripChars (collapseWs ((asciiDrop t).map crLfCaretToSpace))

/-! ### `_sanitize_date` (src/sanitize-ofx.py lines 71-80)

`datetime.strptime` for the five fixed patterns is modelled per pattern:
the whole (stripped) string must split on the pattern's separator into the
pattern's fields, `%m`/`%d` are one or two digits, `%Y` exactly four,
`%y` exactly two (with the 69-pivot century rule), and the parsed triple
must be a real calendar date (`datetime` raises `ValueError` otherwise,
which `_sanitize_date` catches by moving to the next pattern). -/

/-- A `%m` or `%d` field: one or two decimal digits. -/
def num12? (f : List Char) : Option Nat :=
  if (f.length == 1 || f.length == 2) && f.all Char.isDigit then
    some (digitsToNat f)
  else none

/-- A `%Y` field: exactly four decimal digits. -/
def num4? (f : List Char) : Option Nat :=
  if f.length == 4 && f.all Char.isDigit then some (digitsToNat f) else none

/-- A `%y` field: exactly two decimal digits. -/
def num2? (f : List Char) : Option Nat :=
  if f.length == 2 && f.all Char.isDigit then some (digitsToNat f) else none

/-- Python's `%y` century pivot: 00-68 map to 20xx, 69-99 to 19xx. -/
def y2ToYear (v : Nat) : Nat :=
  if v ≤ 68 then 2000 + v else 1900 + v

def isLeapYear (y : Nat) : Bool :=
  y % 4 == 0 && (y % 100 != 0 || y % 400 == 0)

def daysInMonth (y m : Nat) : Nat :=
  if m == 2 then (if isLeapYear y then 29 else 28)
  else if m == 4 || m == 6 || m == 9 || m == 11 then 30
  else 31

/-- The dates `datetime` accepts: real calendar dates with year 1-9999. -/
def validDate (y m d : Nat) : Bool :=
  decide (1 ≤ y ∧ y ≤ 9999 ∧ 1 ≤ m ∧ m ≤ 12 ∧ 1 ≤ d ∧ d ≤ daysInMonth y m)

/-- `%m/%d/%Y`. -/
def parseMDY4 (s : List Char) : Option (Nat × Nat × Nat) :=
  match splitOnChar '/' s with
  | [a, b, c] => do
    let m ← num12? a
    let d ← num12? b
    let y ← num4? c
    if validDate y m d then some (m, d, y) else none
  | _ => none

/-- `%m/%d/%y`. -/
def parseMDY2 (s : List Char) : Option (Nat × Nat × Nat) :=
  match splitOnChar '/' s with
  | [a, b, c] => do
    let m ← num12? a
    let d ← num12? b
    let y2 ← num2? c
    let y := y2ToYear y2
    if validDate y m d then some (m, d, y) else none
  | _ => none

/-- `%Y-%m-%d`. -/
def parseYMD (s : List Char) : Option (Nat × Nat × Nat) :=
  match splitOnChar '-' s with
  | [a, b, c] => do
    let y ← num4? a
    let m ← num12? b
    let d ← num12? c
    if validDate y m d then some (m, d, y) else none
  | _ => none

/-- `%d/%m/%Y`. -/
def parseDMY4 (s : List Char) : Option (Nat × Nat × Nat) :=
  match splitOnChar '/' s with
  | [a, b, c] => do
    let d ← num12? a
    let m ← num12? b
    let y ← num4? c
    if validDate y m d then some (m, d, y) else none
  | _ => none

/-- `%d-%m-%Y`. -/
def parseDMY4dash (s : List Char) : Option (Nat × Nat × Nat) :=
  match splitOnChar '-' s with
  | [a, b, c] => do
    let d ← num12? a
    let m ← num12? b
    let y ← num4? c
    if validDate y m d then some (m, d, y) else none
  | _ => none

/-- The fixed ordered candidate list of `_sanitize_date`; the first pattern
that parses (and is a real date) wins. -/
def tryDatePatterns (s : List Char) : Option (Nat × Nat × Nat) :=
  (parseMDY4 s).orElse fun _ =>
  (parseMDY2 s).orElse fun _ =>
  (parseYMD s).orElse fun _ =>
  (parseDMY4 s).orElse fun _ =>
  parseDMY4dash s

/-- `parsed.strftime("%m/%d'%y")`. -/
def legacyDate (m d y : Nat) : List Char :=
  twoDigits m ++ '/' :: twoDigits d ++ '\'' :: twoDigits (y % 100)

/-- `_sanitize_date` (lines 71-80): first matching pattern formatted as
`MM/DD'YY`; on failure the stripped input is returned unchanged. -/
def _sanitize_date (raw : List Char) : List Char :=
  let s := stripChars raw
  match tryDatePatterns s with
  | some (m, d, y) => legacyDate m d y
  | none => s

/-! ### Python floats: `float(str)` and `f"{v:.2f}"`

A Python float is modelled as a signed exact decimal — a magnitude
`num × 10^exp` — or infinity or NaN (see the header comment: binary
rounding of IEEE doubles is not modelled; what is exact is the
*acceptance* of `float(str)`, i.e. whether `ValueError` is raised). -/

inductive PyFloat where
  | finite (neg : Bool) (num : Nat) (exp : Int)
  | inf (neg : Bool)
  | nan
deriving DecidableEq

/-- A digit run with single underscores allowed between digits (as Python's
numeric literals accept); returns the accumulated value, number of digits
consumed, and the remaining input. -/
def parseDigitRun (acc len : Nat) : List Char → (Nat × Nat × List Char)
  | '_' :: d :: rest =>
    if d.isDigit then parseDigitRun (acc * 10 + (d.toNat - 48)) (len + 1) rest
    else (acc, len, '_' :: d :: rest)
  | d :: rest =>
    if d.isDigit then parseDigitRun (acc * 10 + (d.toNat - 48)) (len + 1) rest
    else (acc, len, d :: rest)
  | [] => (acc, len, [])

/-- A non-empty digit part (`digitpart` of the Python float grammar). -/
def parseDigitPart? (l : List Char) : Option (Nat × Nat × List Char) :=
  match l with
  | d :: rest =>
    if d.isDigit then some (parseDigitRun (d.toNat - 48) 1 rest) else none
  | [] => none

/-- An optional leading sign; returns (isNegative, rest). -/
def parseSigned (l : List Char) : (Bool × List Char) :=
  match l with
  | '+' :: rest => (false, rest)
  | '-' :: rest => (true, rest)
  | _ => (false, l)

/-- Case-insensitive comparison against an (already lowercase) keyword. -/
def matchKeyword (kw l : List Char) : Bool :=
  l.map Char.toLower == kw

/-- The mantissa of a float literal: `d+ | d+ . d* | d* . d+`
(with the underscore rule inside each digit run).  The value is returned
as a pair `(num, exp)` denoting the exact decimal `num × 10^exp`. -/
def parseMantissa? (l : List Char) : Option (Nat × Int × List Char) :=
  match parseDigitPart? l with
  | some (iv, _, rest) =>
    match rest with
    | '.' :: rest2 =>
      match parseDigitPart? rest2 with
      | some (fv, flen, rest3) =>
        some (iv * 10 ^ flen + fv, -(flen : Int), rest3)
      | none => some (iv, 0, rest2)
    | _ => some (iv, 0, rest)
  | none =>
    match l with
    | '.' :: rest2 =>
      match parseDigitPart? rest2 with
      | some (fv, flen, rest3) => some (fv, -(flen : Int), rest3)
      | none => none
    | _ => none

/-- An optional exponent `([eE] sign? digitpart)?`; `none` means a
malformed exponent (e.g. `"1e"`), which makes `float()` raise. -/
def parseExponent? (l : List Char) : Option (Int × List Char) :=
  match l with
  | e :: rest =>
    if e == 'e' || e == 'E' then
      let (eneg, rest2) := parseSigned rest
      match parseDigitPart? rest2 with
      | some (ev, _, rest3) =>
        some ((if eneg then -(ev : Int) else (ev : Int)), rest3)
      | none => none
    else some (0, e :: rest)
  | [] => some (0, [])

/-- `float(s)`: `none` models `ValueError`.  Whitespace is stripped, an
optional sign is followed by `inf`/`infinity`/`nan` (case-insensitive) or
by a numeric literal that must consume the whole rest of the string. -/
def pyFloat? (t : List Char) : Option PyFloat :=
  let s := stripChars t
  let (neg, rest) := parseSigned s
  if matchKeyword "inf".data rest || matchKeyword "infinity".data rest then
    some (.inf neg)
  else if matchKeyword "nan".data rest then some .nan
  else
    match parseMantissa? rest with
    | some (m, me, rest2) =>
      match parseExponent? rest2 with
      | some (e, rest3) =>
        if rest3 == [] then some (.finite neg m (me + e)) else none
      | none => none
    | none => none

/-- Round the non-negative decimal `num × 10^exp` to the nearest integer,
ties to even (the rounding of `f"{v:.2f}"` on the exact value). -/
def roundHalfEvenNN (num : Nat) (exp : Int) : Nat :=
  if 0 ≤ exp then num * 10 ^ exp.toNat
  else
    let p := 10 ^ (-exp).toNat
    let c := num / p
    let r := num % p
    if 2 * r < p then c
    else if p < 2 * r then c + 1
    else if c % 2 = 0 then c else c + 1

/-- Decimal rendering of a natural number. -/
def natDecimal (n : Nat) : List Char :=
  (Nat.repr n).data

/-- `f"{value:.2f}"`: two fraction digits, sign taken from the float's
sign bit (so a negative zero renders as `-0.00`). -/
def formatF2 : PyFloat → List Char
  | .finite neg num exp =>
    let c := roundHalfEvenNN num (exp + 2)
    (if neg then ['-'] else []) ++ natDecimal (c / 100) ++ '.' :: twoDigits (c % 100)
  | .inf neg => (if neg then ['-'] else []) ++ "inf".data
  | .nan => "nan".data

/-! ### `_sanitize_amount` (src/sanitize-ofx.py lines 83-94) -/

/-- `_sanitize_amount`: strip, drop `,` and `+`; empty or `-` becomes
`0.00`; otherwise `float` it, and on `ValueError` retry after deleting
every character that is not a digit, `.` or `-` (empty meaning zero).
`none` models the `ValueError` the fallback's own `float` call can raise,
which nothing catches. -/
def _sanitize_amount (raw : List Char) : Option (List Char) :=
  let cleaned := ((stripChars raw).filter (fun c => c != ',')).filter (fun c => c != '+')
  if cleaned == [] || cleaned == ['-'] then some "0.00".data
  else
    match pyFloat? cleaned with
    | some v => some (formatF2 v)
    | none =>
      let cleaned2 := cleaned.filter (fun c => c.isDigit || c == '.' || c == '-')
      if cleaned2 == [] then some (formatF2 (.finite false 0 0))
      else (pyFloat? cleaned2).map formatF2

/-! ### `_trim` (src/sanitize-ofx.py lines 97-101) -/

def _trim (text : List Char) (limit : Nat) : List Char :=
  if text.length ≤ limit then text else text.take limit

def _PAYEE_LIMIT : Nat := 80
def _MEMO_LIMIT : Nat := 120
def _ADDRESS_LIMIT : Nat := 35

/-! ### `_format_qif_record` (src/sanitize-ofx.py lines 104-154) -/

def _ALLOWED_QIF_TAGS : List Char :=
  ['D', 'T', 'P', 'M', 'L', 'N', 'A', 'S', 'E', 'O', '$', '^']

/-- The per-tag value lists of the record dictionary built by the first
loop of `_format_qif_record`: for each non-empty line whose first
character is an allowed tag, the remainder is appended to that tag's
list.  (The Python dict is only ever read at fixed keys, so a function
from tag to value list is a faithful model.) -/
def recValues (lines : List (List Char)) (tag : Char) : List (List Char) :=
  lines.filterMap fun e =>
    match e with
    | [] => none
    | t :: v => if t == tag && _ALLOWED_QIF_TAGS.contains t then some v else none

def qifSplitTags : List Char := ['S', 'E', 'O', '$']

/-- One cell of the split grid: the value of `tag` at `index`, if any,
ascii-folded (and amount-normalized for `$`).  The outer `Option` models
the exception `_sanitize_amount` can raise; the inner one is absence. -/
def qifSplitCell (rc : Char → List (List Char)) (i : Nat) (t : Char) :
    Option (Option (List Char)) :=
  match (rc t).get? i with
  | none => some none
  | some v =>
    let cleaned := _ascii v
    if t == '$' then (_sanitize_amount cleaned).map fun a => some (t :: a)
    else some (some (t :: cleaned))

/-- The split-emission double loop of `_format_qif_record` (lines
140-152): for each index and then each tag in the fixed order
`S`,`E`,`O`,`$`, append the cell if present. -/
def qifSplitsLoop (rc : Char → List (List Char)) (maxLen : Nat) :
    Option (List (List Char)) :=
  (List.range maxLen).foldlM
    (fun acc i =>
      qifSplitTags.foldlM
        (fun acc2 t => do
          match ← qifSplitCell rc i t with
          | some line => pure (acc2 ++ [line])
          | none => pure acc2)
        acc)
    []

/-- The number of split rows: the maximum count over `S`,`E`,`O`,`$`
(0 when all are absent). -/
def qifMaxSplitLen (rc : Char → List (List Char)) : Nat :=
  qifSplitTags.foldl (fun a t => Nat.max a (rc t).length) 0

/-- The `D` line of `_format_qif_record`: the first `D` value through
`_sanitize_date` (no ascii folding); absent `D` only logs. -/
def qifDPart (rc : Char → List (List Char)) : List (List Char) :=
  match rc 'D' with
  | v :: _ => ['D' :: _sanitize_date v]
  | [] => []

/-- The `T` line: the first `T` value through `_sanitize_amount` (which
can raise, hence `Option`); absent `T` only logs. -/
def qifTPart (rc : Char → List (List Char)) : Option (List (List Char)) :=
  match rc 'T' with
  | v :: _ => (_sanitize_amount v).map fun a => ['T' :: a]
  | [] => pure []

/-- The `P` line: ascii-folded, truncated to the payee limit. -/
def qifPPart (rc : Char → List (List Char)) : List (List Char) :=
  match rc 'P' with
  | v :: _ => ['P' :: _trim (_ascii v) _PAYEE_LIMIT]
  | [] => []

/-- The `M` line: ascii-folded, truncated to the memo limit. -/
def qifMPart (rc : Char → List (List Char)) : List (List Char) :=
  match rc 'M' with
  | v :: _ => ['M' :: _trim (_ascii v) _MEMO_LIMIT]
  | [] => []

/-- The `L` line: ascii-folded, untruncated. -/
def qifLPart (rc : Char → List (List Char)) : List (List Char) :=
  match rc 'L' with
  | v :: _ => ['L' :: _ascii v]
  | [] => []

/-- The `N` line: ascii-folded, untruncated. -/
def qifNPart (rc : Char → List (List Char)) : List (List Char) :=
  match rc 'N' with
  | v :: _ => ['N' :: _ascii v]
  | [] => []

/-- Every `A` line in original order, ascii-folded and truncated. -/
def qifAPart (rc : Char → List (List Char)) : List (List Char) :=
  (rc 'A').map fun v => 'A' :: _trim (_ascii v) _ADDRESS_LIMIT

/-- `_format_qif_record` (lines 104-154): known fields in fixed order,
every address line, then the index-aligned split lines.  `none` models an
uncaught `ValueError` from `_sanitize_amount`. -/
def _format_qif_record (lines : List (List Char)) : Option (List (List Char)) := do
  let rc := recValues lines
  let tPart ← qifTPart rc
  let splits ← qifSplitsLoop rc (qifMaxSplitLen rc)
  pure (qifDPart rc ++ tPart ++ qifPPart rc ++ qifMPart rc ++ qifLPart rc ++
    qifNPart rc ++ qifAPart rc ++ splits)

/-! ### `sanitize_qif` (src/sanitize-ofx.py lines 157-194) -/

/-- `text.replace("\r\n", "\n").replace("\r", "\n")`. -/
def normalizeNewlines : List Char → List Char
  | '\r' :: '\n' :: rest => '\n' :: normalizeNewlines rest
  | '\r' :: rest => '\n' :: normalizeNewlines rest
  | c :: rest => c :: normalizeNewlines rest
  | [] => []

/-- `p` is an initial segment of `l`. -/
def leadsWith : List Char → List Char → Bool
  | [], _ => true
  | _ :: _, [] => false
  | p :: ps, c :: cs => p == c && leadsWith ps cs

/-- The `!Type` header emitted for a header line: the part after the first
`:`, stripped and upper-cased, defaulting to `BANK`. -/
def qifHeaderLine (line : List Char) : List Char :=
  if line.contains ':' then
    let hv := toUpperList (stripChars ((line.dropWhile (fun c => c != ':')).tail))
    "!Type:".data ++ (if hv == [] then "BANK".data else hv)
  else "!Type:".data ++ "BANK".data

def CRLF : List Char := ['\r', '\n']

/-- The line loop of `sanitize_qif`: `out` is the emitted lines so far,
`buffer` the current record's lines.  A `!Type` line flushes the buffer
(with a `^` delimiter) and emits the header; a `^` line flushes and emits
the delimiter; any other non-empty line is buffered; a trailing non-empty
buffer is flushed at end of input. -/
def qifLoop : List (List Char) → List (List Char) → List (List Char) →
    Option (List (List Char))
  | [], out, buffer =>
    if buffer == [] then some out
    else (_format_qif_record buffer).map fun fr => out ++ fr ++ [['^']]
  | line :: ls, out, buffer =>
    if line == [] then qifLoop ls out buffer
    else if leadsWith "!Type".data line then
      if buffer == [] then qifLoop ls (out ++ [qifHeaderLine line]) []
      else
        match _format_qif_record buffer with
        | some fr => qifLoop ls (out ++ fr ++ [['^']] ++ [qifHeaderLine line]) []
        | none => none
    else if line == ['^'] then
      if buffer == [] then qifLoop ls (out ++ [['^']]) []
      else
        match _format_qif_record buffer with
        | some fr => qifLoop ls (out ++ fr ++ [['^']]) []
        | none => none
    else qifLoop ls out (buffer ++ [line])

/-- `sanitize_qif` (lines 157-194): normalize line endings, strip each
line, run the record loop, join with CRLF and append a trailing CRLF.
`none` models an uncaught exception (the spec says this cannot happen). -/
def sanitize_qif (text : List Char) : Option (List Char) :=
  let content := normalizeNewlines text
  let lines := (splitOnChar '\n' content).map stripChars
  (qifLoop lines [] []).map fun out => List.intercalate CRLF out ++ CRLF

/-! ### The OFX element tree (`xml.etree.ElementTree` as used here)

A node has a tag, text and an ordered list of children.  `None` text and
`""` text are identified (the source only ever reads text through
truthiness or `or ""`).  Tail text is ignored by the serializer and not
modelled. -/

inductive Elem where
  | mk (tag : List Char) (text : List Char) (children : List Elem)

def Elem.tag : Elem → List Char
  | .mk t _ _ => t

def Elem.text : Elem → List Char
  | .mk _ x _ => x

def Elem.children : Elem → List Elem
  | .mk _ _ c => c

mutual
/-- All nodes of a subtree in document (pre-)order, as `Element.iter`
enumerates them. -/
def iterE : Elem → List Elem
  | .mk t x ch => .mk t x ch :: iterF ch

/-- All nodes of a forest in document (pre-)order. -/
def iterF : List Elem → List Elem
  | [] => []
  | c :: cs => iterE c ++ iterF cs
end

def tagIs (tg : List Char) (e : Elem) : Bool :=
  e.tag == tg

/-- `root.find(".//TAG")` / `root.findall(".//TAG")[0]`: the first
descendant (excluding the root itself) with the given tag, in document
order. -/
def findDesc (tg : List Char) (e : Elem) : Option Elem :=
  ((iterF e.children).filter (tagIs tg)).head?

/-- `parent.find("TAG")`: the first direct child with the given tag. -/
def childNamed (tg : List Char) (e : Elem) : Option Elem :=
  e.children.find? (tagIs tg)

mutual
/-- In-place mutation of the first descendant matched by `p`: replace it
by its image under `f`.  The boolean reports whether a replacement
happened (used to stop at the first match in document order). -/
def replF (p : Elem → Bool) (f : Elem → Elem) : List Elem → (List Elem × Bool)
  | [] => ([], false)
  | c :: cs =>
    if p c then (f c :: cs, true)
    else
      let r1 := replIn p f c
      if r1.2 then (r1.1 :: cs, true)
      else
        let r2 := replF p f cs
        (c :: r2.1, r2.2)

/-- Mutation of the first matching strict descendant of one node. -/
def replIn (p : Elem → Bool) (f : Elem → Elem) : Elem → (Elem × Bool)
  | .mk t x ch =>
    let r := replF p f ch
    (.mk t x r.1, r.2)
end

/-- Mutating through the reference returned by `root.find(".//...")`:
the first matching descendant is replaced by its image under `f`; with no
match the tree is unchanged. -/
def replaceFirstDesc (p : Elem → Bool) (f : Elem → Elem) (e : Elem) : Elem :=
  .mk e.tag e.text (replF p f e.children).1

/-- Set the text of the first direct child with the given tag (the
child's own children are untouched). -/
def setTextOfFirstChild (tg val : List Char) : List Elem → List Elem
  | [] => []
  | .mk t x ch :: cs =>
    if t == tg then .mk t val ch :: cs
    else .mk t x ch :: setTextOfFirstChild tg val cs

/-- `child = parent.find(TAG); if child is None: child = SubElement(parent,
TAG); child.text = val` — locate or append, then set the text
unconditionally. -/
def setChildText (e : Elem) (tg val : List Char) : Elem :=
  if (childNamed tg e).isSome then
    .mk e.tag e.text (setTextOfFirstChild tg val e.children)
  else
    .mk e.tag e.text (e.children ++ [.mk tg val []])

/-- Apply `f` to the first direct child with the given tag. -/
def mapFirstChild (tg : List Char) (f : Elem → Elem) : List Elem → List Elem
  | [] => []
  | c :: cs => if c.tag == tg then f c :: cs else c :: mapFirstChild tg f cs

/-! ### `_ensure_balances` (src/sanitize-ofx.py lines 215-248)

The current processing time enters through `datetime.utcnow()`; it is
passed explicitly as `nowDate` (the `%Y%m%d` rendering). -/

/-- `stmtrs.findtext(".//DTEND")`, defaulted to the current date when the
element is missing or its text empty. -/
def stmtrsDtend (nowDate : List Char) (st : Elem) : List Char :=
  match findDesc "DTEND".data st with
  | some e => if e.text == [] then nowDate else e.text
  | none => nowDate

/-- `trn.findtext("TRNAMT") or "0"`. -/
def trnAmtText (trn : Elem) : List Char :=
  match childNamed "TRNAMT".data trn with
  | some e => if e.text == [] then "0".data else e.text
  | none => "0".data

/-- IEEE addition on the float model (signs of zero handled as IEEE
round-to-nearest addition does).  Finite values are brought to a common
decimal exponent and added exactly. -/
def pyAdd : PyFloat → PyFloat → PyFloat
  | .nan, _ => .nan
  | _, .nan => .nan
  | .inf a, .inf b => if a == b then .inf a else .nan
  | .inf a, .finite _ _ _ => .inf a
  | .finite _ _ _, .inf b => .inf b
  | .finite n1 m1 e1, .finite n2 m2 e2 =>
    let m := min e1 e2
    let i1 : Int := (if n1 then -(m1 : Int) else (m1 : Int)) * (10 : Int) ^ (e1 - m).toNat
    let i2 : Int := (if n2 then -(m2 : Int) else (m2 : Int)) * (10 : Int) ^ (e2 - m).toNat
    let s := i1 + i2
    if 0 < s then .finite false s.toNat m
    else if s < 0 then .finite true (-s).toNat m
    else .finite (n1 && n2) 0 m

/-- The running total of `_ensure_balances`: sum every `STMTTRN`
descendant's `TRNAMT` (commas removed); unparseable amounts are skipped. -/
def stmtrsTotal (st : Elem) : PyFloat :=
  ((iterF st.children).filter (tagIs "STMTTRN".data)).foldl
    (fun acc trn =>
      match pyFloat? ((trnAmtText trn).filter (fun c => c != ',')) with
      | some v => pyAdd acc v
      | none => acc)
    (.finite false 0 0)

/-- Inside one balance element: locate-or-create `BALAMT` then `DTASOF`
and set both texts (unconditionally). -/
def fixOneBalance (totalStr dtendStr : List Char) (b : Elem) : Elem :=
  setChildText (setChildText b "BALAMT".data totalStr) "DTASOF".data dtendStr

/-- `_make_balance` plus the body of the balance loop for one tag:
reuse the existing direct child or append a new one, then set its
`BALAMT`/`DTASOF`. -/
def ensureBalanceChild (btag totalStr dtendStr : List Char) (st : Elem) : Elem :=
  if (childNamed btag st).isSome then
    .mk st.tag st.text (mapFirstChild btag (fixOneBalance totalStr dtendStr) st.children)
  else
    .mk st.tag st.text (st.children ++ [fixOneBalance totalStr dtendStr (.mk btag [] [])])

/-- The whole mutation of the located `STMTRS` node: compute `dtend` and
the total, then fix `LEDGERBAL` and `AVAILBAL` in that order. -/
def fixStmtrs (nowDate : List Char) (st : Elem) : Elem :=
  let dtend := stmtrsDtend nowDate st
  let totalStr := formatF2 (stmtrsTotal st)
  ensureBalanceChild "AVAILBAL".data totalStr dtend
    (ensureBalanceChild "LEDGERBAL".data totalStr dtend st)

/-- `_ensure_balances` (lines 215-248): a no-op without a `STMTRS`
descendant, otherwise the first one is mutated in place. -/
def _ensure_balances (nowDate : List Char) (root : Elem) : Elem :=
  replaceFirstDesc (tagIs "STMTRS".data) (fixStmtrs nowDate) root

/-! ### `_ensure_fi_info` (src/sanitize-ofx.py lines 251-271) -/

/-- `root.findtext(".//BANKACCTFROM/BANKID", default="000000000").strip()
or "000000000"`. -/
def bankIdOf (root : Elem) : List Char :=
  let found :=
    ((iterF root.children).filter (tagIs "BANKACCTFROM".data)).flatMap
      (fun a => a.children.filter (tagIs "BANKID".data))
  let raw :=
    match found.head? with
    | some b => b.text
    | none => "000000000".data
  let s := stripChars raw
  if s == [] then "000000000".data else s

/-- `if fi.find(TAG) is None: SubElement(fi, TAG).text = txt` — create and
default only when absent; an existing child is left entirely alone. -/
def ensureChildWithText (tg txt : List Char) (e : Elem) : Elem :=
  if (childNamed tg e).isSome then e
  else .mk e.tag e.text (e.children ++ [.mk tg txt []])

/-- The `ORG` / `FID` defaulting inside the `FI` block. -/
def fixFi (bankId : List Char) (fi : Elem) : Elem :=
  ensureChildWithText "FID".data bankId (ensureChildWithText "ORG".data bankId fi)

/-- The mutation of the located `SONRS` node: locate-or-append `FI` and
default its `ORG`/`FID`; locate-or-append `INTU.BID` and set its text to
the bank id unconditionally. -/
def fixSonrs (bankId : List Char) (s : Elem) : Elem :=
  let s1 :=
    if (childNamed "FI".data s).isSome then
      .mk s.tag s.text (mapFirstChild "FI".data (fixFi bankId) s.children)
    else
      .mk s.tag s.text (s.children ++ [fixFi bankId (.mk "FI".data [] [])])
  setChildText s1 "INTU.BID".data bankId

/-- `_ensure_fi_info` (lines 251-271): a no-op without a `SONRS`
descendant, otherwise the first one is mutated in place. -/
def _ensure_fi_info (root : Elem) : Elem :=
  replaceFirstDesc (tagIs "SONRS".data) (fixSonrs (bankIdOf root)) root

/-! ### `_sanitize_ofx_value` (src/sanitize-ofx.py lines 274-292) -/

def _OFX_TAG_LIMITS (tg : List Char) : Option Nat :=
  if tg == "NAME".data then some 32
  else if tg == "MEMO".data then some 255
  else if tg == "FITID".data then some 32
  else if tg == "TRNUID".data then some 36
  else if tg == "ORG".data then some 32
  else if tg == "FID".data then some 32
  else none

def ofxDateTags : List (List Char) :=
  ["DTPOSTED".data, "DTSTART".data, "DTEND".data, "DTASOF".data]

/-- `_sanitize_ofx_value` (lines 274-292): strip; amounts through
`_sanitize_amount` (which can raise, hence `Option`); the four
date/timestamp tags keep only their digits, falling back to the stripped
raw value when no digit is left (`digits or raw`); everything else is
ascii-folded and truncated per the tag limits. -/
def _sanitize_ofx_value (tag value : List Char) : Option (List Char) :=
  let raw := stripChars value
  if raw == [] then some []
  else
    let upperTag := toUpperList tag
    if upperTag == "TRNAMT".data then _sanitize_amount raw
    else if ofxDateTags.contains upperTag then
      let digits := raw.filter Char.isDigit
      some (if digits == [] then raw else digits)
    else
      let sanitized := _ascii raw
      match _OFX_TAG_LIMITS upperTag with
      | some limit => some (_trim sanitized limit)
      | none => some sanitized

/-! ### `_ofx_element_to_sgml` (src/sanitize-ofx.py lines 295-318) -/

def ofxOpenTag (tg : List Char) : List Char :=
  '<' :: tg ++ ['>']

def ofxCloseTag (tg : List Char) : List Char :=
  '<' :: '/' :: tg ++ ['>']

mutual
/-- The `_walk` of `_ofx_element_to_sgml`: a branching element emits an
opening tag line, its text line if non-empty, its children's lines and a
closing tag line; a leaf emits one combined line, or nothing at all when
its sanitized text is empty. -/
def ofxWalk : Elem → Option (List (List Char))
  | .mk tg tx ch => do
    let tag := toUpperList tg
    let text ← _sanitize_ofx_value tag tx
    match ch with
    | [] => if text == [] then pure [] else pure [ofxOpenTag tag ++ text]
    | _ =>
      let childLines ← ofxWalkList ch
      pure ([ofxOpenTag tag] ++ (if text == [] then [] else [text]) ++
        childLines ++ [ofxCloseTag tag])

def ofxWalkList : List Elem → Option (List (List Char))
  | [] => pure []
  | c :: cs => do
    let a ← ofxWalk c
    let b ← ofxWalkList cs
    pure (a ++ b)
end

/-- `_ofx_element_to_sgml` (lines 295-318). -/
def _ofx_element_to_sgml (e : Elem) : Option (List (List Char)) :=
  ofxWalk e

/-! ### Views used to state the enrichment claims -/

/-- The text of `STMTRS → <btag> → <ctag>` (first matches), e.g. the
ledger balance amount. -/
def balChildText (btag ctag : List Char) (t : Elem) : Option (List Char) :=
  (findDesc "STMTRS".data t).bind fun st =>
    (childNamed btag st).bind fun b =>
      (childNamed ctag b).map Elem.text

/-- The text of `SONRS → FI → <ctag>` (first matches). -/
def fiChildText (ctag : List Char) (t : Elem) : Option (List Char) :=
  (findDesc "SONRS".data t).bind fun s =>
    (childNamed "FI".data s).bind fun fi =>
      (childNamed ctag fi).map Elem.text

/-- The text of `SONRS → INTU.BID`. -/
def intuBidText (t : Elem) : Option (List Char) :=
  (findDesc "SONRS".data t).bind fun s =>
    (childNamed "INTU.BID".data s).map Elem.text

/-! ### Spec-side description of QIF split emission (for claim C7)

This definition follows the spec's words (§4.2 item 8: "for index
0..max(count of S, E, O, $) across the record, and for each index, emit in
fixed order `S`,`E`,`O`,`$` any value present at that index"), to be
compared against the loop the source implements. -/

def qifSplitGroupSpec (rc : Char → List (List Char)) (i : Nat) :
    Option (List (List Char)) :=
  (qifSplitTags.mapM (qifSplitCell rc i)).map (List.filterMap id)

def qifSplitLinesSpec (rc : Char → List (List Char)) :
    Option (List (List Char)) :=
  ((List.range (qifMaxSplitLen rc)).mapM (qifSplitGroupSpec rc)).map List.flatten

/-! ### Concrete example trees used by counterexamples and witnesses -/

/-- A statement response that already carries a ledger balance with a
balance amount and an as-of date. -/
def exBalStmtrs : Elem :=
  .mk "STMTRS".data []
    [.mk "LEDGERBAL".data []
      [.mk "BALAMT".data "999.99".data [], .mk "DTASOF".data "20200101".data []]]

def exBalRoot : Elem :=
  .mk "OFX".data [] [exBalStmtrs]

/-- A sign-on response with a populated financial-institution block and a
populated institution-vendor id. -/
def exFiSonrs : Elem :=
  .mk "SONRS".data []
    [.mk "FI".data []
      [.mk "ORG".data "MyBank".data [], .mk "FID".data "42".data []],
     .mk "INTU.BID".data "12345".data []]

def exFiRoot : Elem :=
  .mk "OFX".data [] [exFiSonrs]

/-- A transaction holding an empty-text `NAME` leaf. -/
def exEmptyLeafTree : Elem :=
  .mk "STMTTRN".data []
    [.mk "TRNTYPE".data "DEBIT".data [], .mk "NAME".data [] []]

/-! ### Helper lemmas: stripping, collapsing, membership -/

theorem dropWhile_dropWhile_same (p : Char → Bool) (l : List Char) :
    (l.dropWhile p).dropWhile p = l.dropWhile p := by
  induction l with
  | nil => rfl
  | cons a t ih =>
    by_cases h : p a
    · simp [List.dropWhile_cons, h, ih]
    · simp [List.dropWhile_cons, h]

theorem mem_dropWhile {p : Char → Bool} {c : Char} {l : List Char}
    (h : c ∈ l.dropWhile p) : c ∈ l :=
  (List.dropWhile_sublist p).mem h

theorem mem_stripChars {c : Char} {l : List Char} (h : c ∈ stripChars l) : c ∈ l := by
  unfold stripChars at h
  rw [List.mem_reverse] at h
  have h2 := mem_dropWhile h
  rw [List.mem_reverse] at h2
  exact mem_dropWhile h2

theorem stripChars_of_clean {s : List Char} (h1 : s.dropWhile isPySpace = s)
    (h2 : s.reverse.dropWhile isPySpace = s.reverse) : stripChars s = s := by
  unfold stripChars
  rw [h1, h2]
  simp

theorem stripChars_idem (l : List Char) : stripChars (stripChars l) = stripChars l := by
  have key : stripChars l <+: l.dropWhile isPySpace := by
    rw [← List.reverse_suffix]
    unfold stripChars
    simpa using
      List.dropWhile_suffix (l := (l.dropWhile isPySpace).reverse) isPySpace
  have hfront : (stripChars l).dropWhile isPySpace = stripChars l := by
    cases hs : stripChars l with
    | nil => rfl
    | cons a t =>
      obtain ⟨ts, hts⟩ := key
      rw [hs] at hts
      have ha : isPySpace a = false := by
        have h2 := dropWhile_dropWhile_same isPySpace l
        rw [← hts, List.cons_append] at h2
        by_cases hpa : isPySpace a
        · rw [List.dropWhile_cons, if_pos hpa] at h2
          have hlen := congrArg List.length h2
          have hle := (List.dropWhile_suffix (l := t ++ ts) isPySpace).sublist.length_le
          rw [List.length_cons] at hlen
          omega
        · simpa using hpa
      rw [List.dropWhile_cons, ha]
      simp
  have hback : (stripChars l).reverse.dropWhile isPySpace = (stripChars l).reverse := by
    have hsrev : (stripChars l).reverse =
        ((l.dropWhile isPySpace).reverse).dropWhile isPySpace := by
      unfold stripChars
      simp
    rw [hsrev]
    exact dropWhile_dropWhile_same _ _
  exact stripChars_of_clean hfront hback

theorem stripChars_eq_self {l : List Char} (h : ∀ c ∈ l, isPySpace c = false) :
    stripChars l = l := by
  have h1 : l.dropWhile isPySpace = l := by
    match l, h with
    | [], _ => rfl
    | a :: t, h => simp [List.dropWhile_cons, h a (by simp)]
  have h2 : l.reverse.dropWhile isPySpace = l.reverse := by
    match hr : l.reverse with
    | [] => rfl
    | a :: t =>
      have ha : a ∈ l := by
        rw [← List.mem_reverse, hr]
        simp
      simp [List.dropWhile_cons, h a ha]
  exact stripChars_of_clean h1 h2

theorem mem_collapseGo {c : Char} : ∀ (b : Bool) (l : List Char),
    c ∈ collapseGo b l → (isPySpace c = true → c = ' ') ∧ (c = ' ' ∨ c ∈ l) := by
  intro b l
  induction l generalizing b with
  | nil => intro h; simp [collapseGo] at h
  | cons a t ih =>
    intro h
    by_cases hsp : isPySpace a
    · rw [collapseGo, if_pos hsp] at h
      cases b with
      | true =>
        rw [if_pos rfl] at h
        obtain ⟨h1, h2⟩ := ih true h
        exact ⟨h1, h2.imp id (List.mem_cons_of_mem a)⟩
      | false =>
        rw [if_neg (by decide)] at h
        simp only [List.mem_cons] at h
        rcases h with h | h
        · subst h
          exact ⟨fun _ => rfl, Or.inl rfl⟩
        · obtain ⟨h1, h2⟩ := ih true h
          exact ⟨h1, h2.imp id (List.mem_cons_of_mem a)⟩
    · rw [collapseGo, if_neg hsp] at h
      simp only [List.mem_cons] at h
      rcases h with h | h
      · subst h
        refine ⟨fun hc => absurd hc (by simpa using hsp), Or.inr (by simp)⟩
      · obtain ⟨h1, h2⟩ := ih false h
        exact ⟨h1, h2.imp id (List.mem_cons_of_mem a)⟩

/-- Every character of an `_ascii` output comes from the (space-mapped,
ascii-filtered) input or is a space, is never `^`, and is never a
whitespace character other than the space itself. -/
theorem mem_ascii {c : Char} {t : List Char} (h : c ∈ _ascii t) :
    c.toNat < 128 ∧ c ≠ '^' ∧ (isPySpace c = true → c = ' ') := by
  unfold _ascii at h
  have h1 := mem_stripChars h
  obtain ⟨hsp, h2⟩ := mem_collapseGo false _ h1
  have hmain : c.toNat < 128 ∧ c ≠ '^' := by
    rcases h2 with h2 | h2
    · subst h2; exact ⟨by decide, by decide⟩
    · rw [List.mem_map] at h2
      obtain ⟨b, hb, hbc⟩ := h2
      unfold asciiDrop at hb
      rw [List.mem_filter] at hb
      obtain ⟨-, hb2⟩ := hb
      unfold crLfCaretToSpace at hbc
      by_cases hcase : (b == '\r' || b == '\n' || b == '^') = true
      · rw [if_pos hcase] at hbc
        subst hbc; exact ⟨by decide, by decide⟩
      · rw [if_neg hcase] at hbc
        subst hbc
        simp only [Bool.or_eq_true, beq_iff_eq, not_or] at hcase
        exact ⟨by simpa using hb2, by simpa using hcase.2⟩
  exact ⟨hmain.1, hmain.2, hsp⟩

/-! ### Claim theorems: C1, C4, C5, C6 -/

/-- C1: the claim says `sanitize_qif` (and in particular the amount
fallback inside `_sanitize_amount`) never raises for any input.  The code
contradicts this: on the raw amount `"1.2.3"` the fallback deletes nothing
(every character is a digit, `.` or `-`) and the uncaught second `float`
call raises `ValueError` again, which escapes `sanitize_qif`.  This
theorem evaluates the model at that failing input. -/
theorem c1_qif_amount_fallback_raises :
    _sanitize_amount "1.2.3".data = none ∧ sanitize_qif "T1.2.3\n^".data = none :=
  ⟨rfl, rfl⟩

/-- C4: the claim says that for every amount string over the characters
`0-9 , . - +` the function returns a string matching `-?\d+\.\d{2}`.  The
input `"1.2.3"` is over that alphabet, yet the function raises
`ValueError` (returns nothing at all): the fallback `float` call is
uncaught.  This theorem evaluates the model at that failing input. -/
theorem c4_amount_charset_can_raise :
    ("1.2.3".data.all fun c => c.isDigit || c == ',' || c == '.' || c == '-' || c == '+') = true
    ∧ _sanitize_amount "1.2.3".data = none :=
  ⟨rfl, rfl⟩

/-- C5 counterexample: the claim says `_ascii` output contains no control
characters, but a NUL byte (a control character that is neither
CR/LF/caret nor regex-`\s` whitespace) passes through unchanged:
`_ascii "a\x00b" = "a\x00b"` (NFKD is the identity on this ASCII input). -/
theorem c5_counterexample :
    _ascii "a\u0000b".data = "a\u0000b".data ∧
    ((_ascii "a\u0000b".data).any fun c => decide (c.toNat < 32)) = true :=
  ⟨rfl, rfl⟩

/-- C5 amended: every character of the output of `_ascii` is 7-bit ASCII,
is not `^`, and is not a whitespace character other than the space itself
(in particular no TAB/CR/LF/FF/VT survives); control characters outside
the whitespace class (e.g. NUL, ESC, DEL) may persist. -/
theorem c5_ascii_output_charset (t : List Char) (c : Char) (hc : c ∈ _ascii t) :
    c.toNat < 128 ∧ c ≠ '^' ∧ (isPySpace c = true → c = ' ') :=
  mem_ascii hc

/-- C5 witness: instantiating the amended theorem at a concrete input. -/
theorem c5_witness :
    ('x' ∈ _ascii "x^ y".data) ∧
    ('x'.toNat < 128 ∧ 'x' ≠ '^' ∧ (isPySpace 'x' = true → 'x' = ' ')) :=
  ⟨by decide, c5_ascii_output_charset "x^ y".data 'x' (by decide)⟩

theorem filter_ne_nil_of_any {p : Char → Bool} {l : List Char} (h : l.any p = true) :
    l.filter p ≠ [] := by
  rw [List.any_eq_true] at h
  obtain ⟨x, hx, hpx⟩ := h
  intro hnil
  have hmem := List.mem_filter.mpr ⟨hx, hpx⟩
  rw [hnil] at hmem
  simp at hmem

/-- C6 counterexample: the claim says a date-tag value is emitted with
every non-digit removed (hence all digits).  For the value `"abc"` the
digit-stripped value is empty and the code emits the raw value instead:
the serialized line is `<DTPOSTED>abc`. -/
theorem c6_counterexample :
    _ofx_element_to_sgml (.mk "DTPOSTED".data "abc".data []) = some ["<DTPOSTED>abc".data]
    ∧ "abc".data.filter Char.isDigit = [] :=
  ⟨rfl, rfl⟩

/-- C6 amended: for the four date/timestamp tags, when at least one digit
survives stripping, the emitted value is exactly the raw value with every
non-digit removed (a result under 8 digits only adds a diagnostic); when
no digit survives, the stripped raw value is emitted unchanged instead. -/
theorem c6_date_tags_digit_stripped (tag value : List Char)
    (hdate : ofxDateTags.contains (toUpperList tag) = true)
    (hdig : (stripChars value).any Char.isDigit = true) :
    _sanitize_ofx_value tag value = some ((stripChars value).filter Char.isDigit) := by
  have hraw : (stripChars value == []) = false := by
    cases h : stripChars value with
    | nil => rw [h] at hdig; simp at hdig
    | cons a t => simp
  have hfil : ((stripChars value).filter Char.isDigit == []) = false := by
    have := filter_ne_nil_of_any hdig
    simpa using this
  have htrn : (toUpperList tag == "TRNAMT".data) = false := by
    have hmem : toUpperList tag ∈ ofxDateTags := by
      simpa using hdate
    simp only [ofxDateTags, List.mem_cons] at hmem
    rcases hmem with h | h | h | h | h
    · rw [h]; decide
    · rw [h]; decide
    · rw [h]; decide
    · rw [h]; decide
    · simp at h
  simp only [_sanitize_ofx_value, hraw, htrn, hdate, hfil]
  simp

/-- C6 witness: instantiating the amended theorem at `DTPOSTED` with the
value `2023-12-25`. -/
theorem c6_witness :
    (ofxDateTags.contains (toUpperList "DTPOSTED".data) = true)
    ∧ ((stripChars "2023-12-25".data).any Char.isDigit = true)
    ∧ _sanitize_ofx_value "DTPOSTED".data "2023-12-25".data = some "20231225".data :=
  ⟨rfl, rfl, c6_date_tags_digit_stripped "DTPOSTED".data "2023-12-25".data rfl rfl⟩

/-! ### Helper lemmas for `_sanitize_date` idempotence (claim C9) -/

theorem splitOnChar_ne_nil (sep : Char) (l : List Char) : splitOnChar sep l ≠ [] := by
  induction l with
  | nil => simp [splitOnChar]
  | cons c rest ih =>
    by_cases hc : (c == sep) = true
    · simp [splitOnChar, hc]
    · cases h : splitOnChar sep rest with
      | nil => exact absurd h ih
      | cons f fs => simp [splitOnChar, hc, h]

theorem splitOnChar_length (sep : Char) (l : List Char) :
    (splitOnChar sep l).length = l.count sep + 1 := by
  induction l with
  | nil => simp [splitOnChar]
  | cons c rest ih =>
    by_cases hc : (c == sep) = true
    · have hcs : c = sep := by simpa using hc
      subst hcs
      simp [splitOnChar, List.count_cons, ih]
    · cases h : splitOnChar sep rest with
      | nil => exact absurd h (splitOnChar_ne_nil sep rest)
      | cons f fs =>
        have hne : ¬ c = sep := by simpa using hc
        rw [h] at ih
        simp only [splitOnChar, hc, if_false, h, List.count_cons]
        simp only [List.length_cons] at ih ⊢
        simp [hne, ih]

theorem digitChar_facts (k : Nat) (hk : k < 10) :
    (Char.ofNat (48 + k)).isDigit = true ∧ isPySpace (Char.ofNat (48 + k)) = false ∧
    Char.ofNat (48 + k) ≠ '/' ∧ Char.ofNat (48 + k) ≠ '-' := by
  interval_cases k <;> exact ⟨rfl, rfl, by decide, by decide⟩

theorem twoDigits_facts (n : Nat) :
    ∀ c ∈ twoDigits n, c.isDigit = true ∧ isPySpace c = false ∧ c ≠ '/' ∧ c ≠ '-' := by
  intro c hc
  unfold twoDigits at hc
  have h1 := digitChar_facts ((n / 10) % 10) (Nat.mod_lt _ (by norm_num))
  have h2 := digitChar_facts (n % 10) (Nat.mod_lt _ (by norm_num))
  simp only [List.mem_cons, List.not_mem_nil, or_false] at hc
  rcases hc with h | h <;> subst h
  · exact h1
  · exact h2

theorem count_twoDigits_slash (n : Nat) : (twoDigits n).count '/' = 0 := by
  rw [List.count_eq_zero]
  intro h
  exact (twoDigits_facts n '/' h).2.2.1 rfl

theorem count_twoDigits_dash (n : Nat) : (twoDigits n).count '-' = 0 := by
  rw [List.count_eq_zero]
  intro h
  exact (twoDigits_facts n '-' h).2.2.2 rfl

theorem legacyDate_count_slash (m d y : Nat) : (legacyDate m d y).count '/' = 1 := by
  unfold legacyDate
  simp [List.count_append, List.count_cons, count_twoDigits_slash]

theorem legacyDate_count_dash (m d y : Nat) : (legacyDate m d y).count '-' = 0 := by
  unfold legacyDate
  simp [List.count_append, List.count_cons, count_twoDigits_dash]

theorem legacyDate_no_space (m d y : Nat) :
    ∀ c ∈ legacyDate m d y, isPySpace c = false := by
  intro c hc
  unfold legacyDate at hc
  rw [List.mem_append] at hc
  rcases hc with h | h
  · rw [List.mem_append] at h
    rcases h with h | h
    · exact (twoDigits_facts m c h).2.1
    · rw [List.mem_cons] at h
      rcases h with h | h
      · subst h; decide
      · exact (twoDigits_facts d c h).2.1
  · rw [List.mem_cons] at h
    rcases h with h | h
    · subst h; decide
    · exact (twoDigits_facts (y % 100) c h).2.1

theorem parser3_slash_none {s : List Char} (h : (splitOnChar '/' s).length = 2) :
    parseMDY4 s = none ∧ parseMDY2 s = none ∧ parseDMY4 s = none := by
  obtain ⟨a, b, hab⟩ := List.length_eq_two.mp h
  refine ⟨?_, ?_, ?_⟩ <;> simp [parseMDY4, parseMDY2, parseDMY4, hab]

theorem parser3_dash_none {s : List Char} (h : (splitOnChar '-' s).length = 1) :
    parseYMD s = none ∧ parseDMY4dash s = none := by
  obtain ⟨a, hab⟩ := List.length_eq_one.mp h
  refine ⟨?_, ?_⟩ <;> simp [parseYMD, parseDMY4dash, hab]

/-- The legacy output `MM/DD'YY` matches none of the five input patterns
(the apostrophe separator survives in no pattern's field grammar). -/
theorem tryDatePatterns_legacyDate (m d y : Nat) :
    tryDatePatterns (legacyDate m d y) = none := by
  have h1 : (splitOnChar '/' (legacyDate m d y)).length = 2 := by
    rw [splitOnChar_length, legacyDate_count_slash]
  have h2 : (splitOnChar '-' (legacyDate m d y)).length = 1 := by
    rw [splitOnChar_length, legacyDate_count_dash]
  obtain ⟨p1, p2, p3⟩ := parser3_slash_none h1
  obtain ⟨p4, p5⟩ := parser3_dash_none h2
  simp [tryDatePatterns, p1, p2, p3, p4, p5, Option.orElse]

/-- C9: `parseDateToLegacy` (`_sanitize_date`) is idempotent: for every
input string, applying it to its own output returns that output
unchanged.  On success the output `MM/DD'YY` re-parses under no pattern
and is already stripped; on failure the output is the stripped input,
which strips and fails identically a second time. -/
theorem c9_sanitize_date_idempotent (raw : List Char) :
    _sanitize_date (_sanitize_date raw) = _sanitize_date raw := by
  have hd : ∀ s : List Char, tryDatePatterns (stripChars s) = none →
      _sanitize_date s = stripChars s := by
    intro s hs
    simp only [_sanitize_date, hs]
  have hd2 : ∀ (s : List Char) (m d y : Nat),
      tryDatePatterns (stripChars s) = some (m, d, y) →
      _sanitize_date s = legacyDate m d y := by
    intro s m d y hs
    simp only [_sanitize_date, hs]
  cases h : tryDatePatterns (stripChars raw) with
  | none =>
    have e1 := hd raw h
    have e2 : _sanitize_date (stripChars raw) = stripChars (stripChars raw) := by
      apply hd
      rw [stripChars_idem]
      exact h
    rw [e1, e2, stripChars_idem]
  | some mdy =>
    obtain ⟨m, d, y⟩ := mdy
    have hstrip : stripChars (legacyDate m d y) = legacyDate m d y :=
      stripChars_eq_self (legacyDate_no_space m d y)
    have e1 := hd2 raw m d y h
    have e2 : _sanitize_date (legacyDate m d y) = stripChars (legacyDate m d y) := by
      apply hd
      rw [hstrip]
      exact tryDatePatterns_legacyDate m d y
    rw [e1, e2, hstrip]


/-! ### Claim C10: unparsed QIF date values are reproduced verbatim -/

/-- The output of a successful `_format_qif_record` is the fixed-order
parts followed by the split lines. -/
theorem format_qif_structure (lines out : List (List Char))
    (hfmt : _format_qif_record lines = some out) :
    ∃ tPart splits,
      qifTPart (recValues lines) = some tPart
      ∧ qifSplitsLoop (recValues lines) (qifMaxSplitLen (recValues lines)) = some splits
      ∧ out = qifDPart (recValues lines) ++ tPart ++ qifPPart (recValues lines)
          ++ qifMPart (recValues lines) ++ qifLPart (recValues lines)
          ++ qifNPart (recValues lines) ++ qifAPart (recValues lines) ++ splits := by
  have heq : _format_qif_record lines
      = (qifTPart (recValues lines)).bind fun tPart =>
          (qifSplitsLoop (recValues lines) (qifMaxSplitLen (recValues lines))).bind
            fun splits =>
              some (qifDPart (recValues lines) ++ tPart ++ qifPPart (recValues lines)
                ++ qifMPart (recValues lines) ++ qifLPart (recValues lines)
                ++ qifNPart (recValues lines) ++ qifAPart (recValues lines) ++ splits) :=
    rfl
  rw [heq, Option.bind_eq_some] at hfmt
  obtain ⟨tv, htv, hrest⟩ := hfmt
  rw [Option.bind_eq_some] at hrest
  obtain ⟨sv, hsv, hout⟩ := hrest
  rw [Option.some.injEq] at hout
  exact ⟨tv, sv, htv, hsv, hout.symm⟩

/-- C10: for every QIF record whose first `D` value fails all five date
patterns, the emitted date line is exactly `D` followed by the raw value
with surrounding whitespace trimmed — it bypasses `_ascii` entirely, so
(unlike every other text field) it may retain non-ASCII characters,
control characters other than line breaks, and `^` characters. -/
theorem c10_unparsed_date_verbatim (lines out : List (List Char)) (v : List Char)
    (vs : List (List Char))
    (hfmt : _format_qif_record lines = some out)
    (hD : recValues lines 'D' = v :: vs)
    (hfail : tryDatePatterns (stripChars v) = none) :
    out.head? = some ('D' :: stripChars v) := by
  obtain ⟨tv, sv, htv, hsv, hout⟩ := format_qif_structure lines out hfmt
  have hsd : _sanitize_date v = stripChars v := by
    simp only [_sanitize_date, hfail]
  have hdp : qifDPart (recValues lines) = ['D' :: stripChars v] := by
    simp only [qifDPart, hD, hsd]
  rw [hout, hdp]
  simp

/-- C10 witness: a record whose only line is `Dab^c`; the date fails every
pattern and the emitted line retains the `^` verbatim. -/
theorem c10_witness :
    _format_qif_record ["Dab^c".data] = some ["Dab^c".data]
    ∧ recValues ["Dab^c".data] 'D' = ["ab^c".data]
    ∧ tryDatePatterns (stripChars "ab^c".data) = none
    ∧ (["Dab^c".data] : List (List Char)).head? = some ('D' :: stripChars "ab^c".data) :=
  ⟨rfl, rfl, rfl,
    c10_unparsed_date_verbatim ["Dab^c".data] ["Dab^c".data] "ab^c".data [] rfl rfl rfl⟩

/-! ### Claim C7: index-aligned split emission -/

theorem qifSplitFold_inner (rc : Char → List (List Char)) (i : Nat) :
    ∀ (ts : List Char) (acc : List (List Char)),
    (ts.foldlM
      (fun acc2 t => do
        match ← qifSplitCell rc i t with
        | some line => pure (acc2 ++ [line])
        | none => pure acc2)
      acc : Option (List (List Char)))
    = ((ts.mapM (qifSplitCell rc i)).map (List.filterMap id)).map (acc ++ ·) := by
  intro ts
  induction ts with
  | nil =>
    intro acc
    rw [List.foldlM_nil, List.mapM_nil]
    simp
  | cons t ts ih =>
    intro acc
    rw [List.foldlM_cons]
    simp only [ih]
    rw [List.mapM_cons]
    cases hc : qifSplitCell rc i t with
    | none => rfl
    | some cell =>
      cases hm : ts.mapM (qifSplitCell rc i) with
      | none => cases cell <;> rfl
      | some ms =>
        cases cell with
        | none => simp [List.filterMap_cons]
        | some line => simp [List.filterMap_cons, List.append_assoc]

theorem qifSplitFold_outer (rc : Char → List (List Char)) :
    ∀ (is : List Nat) (acc : List (List Char)),
    (is.foldlM
      (fun acc i =>
        qifSplitTags.foldlM
          (fun acc2 t => do
            match ← qifSplitCell rc i t with
            | some line => pure (acc2 ++ [line])
            | none => pure acc2)
          acc)
      acc : Option (List (List Char)))
    = ((is.mapM (qifSplitGroupSpec rc)).map List.flatten).map (acc ++ ·) := by
  intro is
  induction is with
  | nil =>
    intro acc
    rw [List.foldlM_nil, List.mapM_nil]
    simp
  | cons i is ih =>
    intro acc
    rw [List.foldlM_cons]
    simp only [ih]
    rw [qifSplitFold_inner]
    rw [show ((qifSplitTags.mapM (qifSplitCell rc i)).map (List.filterMap id))
      = qifSplitGroupSpec rc i from rfl]
    rw [List.mapM_cons]
    cases hgv : qifSplitGroupSpec rc i with
    | none => rfl
    | some g =>
      cases hm : is.mapM (qifSplitGroupSpec rc) with
      | none => rfl
      | some gs => simp [List.append_assoc]

/-- The source's accumulating double loop computes exactly the spec-side
description of the split lines. -/
theorem qifSplitsLoop_eq_spec (rc : Char → List (List Char)) :
    qifSplitsLoop rc (qifMaxSplitLen rc) = qifSplitLinesSpec rc := by
  unfold qifSplitsLoop qifSplitLinesSpec
  rw [qifSplitFold_outer]
  cases hm : (List.range (qifMaxSplitLen rc)).mapM (qifSplitGroupSpec rc) with
  | none => rfl
  | some gs => simp

/-- C7: whenever `_format_qif_record` succeeds, its output ends with the
split lines, and those are exactly the spec's interleaving: for index
0..max(count of S, E, O, $), and at each index in the fixed order
`S`,`E`,`O`,`$`, any value present at that index (ascii-folded; `$`
additionally amount-normalized), so splits are emitted index-aligned and
never grouped by tag. -/
theorem c7_split_emission (lines out : List (List Char))
    (hfmt : _format_qif_record lines = some out) :
    ∃ pre spl, out = pre ++ spl
      ∧ qifSplitLinesSpec (recValues lines) = some spl := by
  obtain ⟨tv, sv, htv, hsv, hout⟩ := format_qif_structure lines out hfmt
  refine ⟨_, sv, hout, ?_⟩
  rw [← qifSplitsLoop_eq_spec]
  exact hsv

/-- C7 witness: the spec's own example shape `S…,$… / S…,$…`: the output
contains `SFirst` before `$10.00` before `SSecond` before `$20.00`,
index-interleaved, never grouped by tag. -/
theorem c7_witness :
    _format_qif_record ["SFirst".data, "$10".data, "SSecond".data, "$20".data]
      = some ["SFirst".data, "$10.00".data, "SSecond".data, "$20.00".data]
    ∧ (∃ pre spl,
        ["SFirst".data, "$10.00".data, "SSecond".data, "$20.00".data] = pre ++ spl
        ∧ qifSplitLinesSpec
            (recValues ["SFirst".data, "$10".data, "SSecond".data, "$20".data])
          = some spl) :=
  ⟨rfl, c7_split_emission ["SFirst".data, "$10".data, "SSecond".data, "$20".data]
    ["SFirst".data, "$10.00".data, "SSecond".data, "$20.00".data] rfl⟩

/-! ### Tree machinery lemmas (for claims C2, C3, C8) -/

/-- Structural induction over forests of `Elem` nodes. -/
theorem forestInd (P : List Elem → Prop) (h0 : P [])
    (h1 : ∀ t x ch cs, P ch → P cs → P (.mk t x ch :: cs)) : ∀ cs, P cs
  | [] => h0
  | .mk t x ch :: cs => h1 t x ch cs (forestInd P h0 h1 ch) (forestInd P h0 h1 cs)

theorem iterE_eq (e : Elem) : iterE e = e :: iterF e.children := by
  cases e
  rfl

theorem find?_append_of_none {p : Elem → Bool} {l1 : List Elem} (l2 : List Elem)
    (h : l1.find? p = none) : (l1 ++ l2).find? p = l2.find? p := by
  induction l1 with
  | nil => rfl
  | cons c cs ih =>
    cases hp : p c with
    | true =>
      rw [List.find?_cons_of_pos _ hp] at h
      simp at h
    | false =>
      rw [List.find?_cons_of_neg _ (by simp [hp])] at h
      show ((c :: cs) ++ l2).find? p = l2.find? p
      rw [List.cons_append, List.find?_cons_of_neg _ (by simp [hp])]
      exact ih h

theorem find?_append_of_some {p : Elem → Bool} {l1 : List Elem} {c0 : Elem}
    (l2 : List Elem) (h : l1.find? p = some c0) :
    (l1 ++ l2).find? p = some c0 := by
  induction l1 with
  | nil => simp at h
  | cons c cs ih =>
    cases hp : p c with
    | true =>
      rw [List.find?_cons_of_pos _ hp] at h
      show ((c :: cs) ++ l2).find? p = some c0
      rw [List.cons_append, List.find?_cons_of_pos _ hp]
      exact h
    | false =>
      rw [List.find?_cons_of_neg _ (by simp [hp])] at h
      show ((c :: cs) ++ l2).find? p = some c0
      rw [List.cons_append, List.find?_cons_of_neg _ (by simp [hp])]
      exact ih h

theorem iterF_nil : iterF [] = [] := rfl

theorem iterF_cons (c : Elem) (cs : List Elem) :
    iterF (c :: cs) = c :: (iterF c.children ++ iterF cs) := by
  rw [show iterF (c :: cs) = iterE c ++ iterF cs from rfl, iterE_eq]
  rfl

theorem replIn_eq (p : Elem → Bool) (f : Elem → Elem) (t x : List Char)
    (ch : List Elem) :
    replIn p f (.mk t x ch) = (.mk t x (replF p f ch).1, (replF p f ch).2) := rfl

theorem replF_cons_pos {p : Elem → Bool} {f : Elem → Elem} {c : Elem}
    {cs : List Elem} (hpc : p c = true) :
    replF p f (c :: cs) = (f c :: cs, true) := by
  cases c with
  | mk t x ch =>
    unfold replF
    rw [if_pos hpc]

theorem replF_cons_neg_in {p : Elem → Bool} {f : Elem → Elem} {c : Elem}
    {cs : List Elem} (hpc : p c = false) (hin : (replIn p f c).2 = true) :
    replF p f (c :: cs) = ((replIn p f c).1 :: cs, true) := by
  cases c with
  | mk t x ch =>
    unfold replF
    rw [if_neg (by simp [hpc])]
    simp only [replIn_eq] at hin ⊢
    simp only [hin]
    rw [if_pos trivial]

theorem replF_cons_neg_skip {p : Elem → Bool} {f : Elem → Elem} {c : Elem}
    {cs : List Elem} (hpc : p c = false) (hin : (replIn p f c).2 = false) :
    replF p f (c :: cs) = (c :: (replF p f cs).1, (replF p f cs).2) := by
  cases c with
  | mk t x ch =>
    conv_lhs => unfold replF
    rw [if_neg (by simp [hpc])]
    simp only [replIn_eq] at hin ⊢
    simp only [hin]
    rw [if_neg (by simp)]

/-- Behaviour of in-place first-match replacement against the document
order match list: with no match nothing changes; with first match `s` and
`f` preserving matching, the replaced forest's match list starts with
`f s`. -/
theorem replF_spec (p : Elem → Bool) (f : Elem → Elem)
    (hp : ∀ t x ch ch', p (.mk t x ch) = p (.mk t x ch')) :
    ∀ cs : List Elem,
      ((iterF cs).filter p = [] → replF p f cs = (cs, false))
      ∧ (∀ s rest, (iterF cs).filter p = s :: rest → p (f s) = true →
          (replF p f cs).2 = true
          ∧ ∃ rest2, (iterF (replF p f cs).1).filter p = f s :: rest2) := by
  refine forestInd _ ⟨fun _ => rfl, fun s rest hcons _ => ?_⟩ ?_
  · rw [iterF_nil] at hcons
    simp at hcons
  · intro t x ch cs ihch ihcs
    have hiter : (iterF (.mk t x ch :: cs)).filter p
        = ((if p (.mk t x ch) then [Elem.mk t x ch] else [])
            ++ ((iterF ch).filter p ++ (iterF cs).filter p)) := by
      rw [iterF_cons, List.filter_cons]
      by_cases hpc : p (.mk t x ch) = true
      · rw [if_pos hpc, if_pos hpc]
        rw [show Elem.children (.mk t x ch) = ch from rfl, List.filter_append]
        rfl
      · rw [if_neg hpc, if_neg hpc]
        rw [show Elem.children (.mk t x ch) = ch from rfl, List.filter_append]
        rfl
    constructor
    · intro hnil
      rw [hiter] at hnil
      by_cases hpc : p (.mk t x ch) = true
      · rw [if_pos hpc] at hnil
        simp at hnil
      · rw [if_neg hpc, List.nil_append] at hnil
        have hch : (iterF ch).filter p = [] := by
          cases hx : (iterF ch).filter p with
          | nil => rfl
          | cons a b => rw [hx] at hnil; simp at hnil
        have hcs : (iterF cs).filter p = [] := by
          rw [hch, List.nil_append] at hnil
          exact hnil
        have e1 := ihch.1 hch
        have e2 := ihcs.1 hcs
        have hin : (replIn p f (.mk t x ch)).2 = false := by
          rw [replIn_eq, e1]
        rw [replF_cons_neg_skip (by simpa using hpc) hin, e2]
    · intro s rest hcons hfs
      rw [hiter] at hcons
      by_cases hpc : p (.mk t x ch) = true
      · rw [if_pos hpc, List.singleton_append] at hcons
        injection hcons with h1 h2
        subst h1
        rw [replF_cons_pos hpc]
        refine ⟨rfl, ?_⟩
        rw [show ((f (.mk t x ch) :: cs, true) : List Elem × Bool).1
          = f (.mk t x ch) :: cs from rfl]
        rw [iterF_cons, List.filter_cons, if_pos hfs]
        exact ⟨_, rfl⟩
      · rw [if_neg hpc, List.nil_append] at hcons
        cases hx : (iterF ch).filter p with
        | cons a b =>
          rw [hx, List.cons_append] at hcons
          injection hcons with h1 h2
          subst h1
          obtain ⟨hdone, rest2, hrest2⟩ := ihch.2 a b hx hfs
          have hin : (replIn p f (.mk t x ch)).2 = true := by
            rw [replIn_eq]
            exact hdone
          rw [replF_cons_neg_in (by simpa using hpc) hin]
          refine ⟨rfl, ?_⟩
          rw [show (((replIn p f (.mk t x ch)).1 :: cs, true) : List Elem × Bool).1
            = (replIn p f (.mk t x ch)).1 :: cs from rfl]
          rw [replIn_eq]
          rw [show ((Elem.mk t x (replF p f ch).1, (replF p f ch).2) :
            Elem × Bool).1 = Elem.mk t x (replF p f ch).1 from rfl]
          rw [iterF_cons, List.filter_cons]
          have hpc2 : p (Elem.mk t x (replF p f ch).1) = false := by
            rw [hp t x (replF p f ch).1 ch]
            simpa using hpc
          rw [hpc2]
          rw [show Elem.children (Elem.mk t x (replF p f ch).1)
            = (replF p f ch).1 from rfl]
          simp only [Bool.false_eq_true, if_false, List.filter_append, hrest2]
          exact ⟨_, rfl⟩
        | nil =>
          rw [hx, List.nil_append] at hcons
          obtain ⟨hdone, rest2, hrest2⟩ := ihcs.2 s rest hcons hfs
          have e1 := ihch.1 hx
          have hin : (replIn p f (.mk t x ch)).2 = false := by
            rw [replIn_eq, e1]
          rw [replF_cons_neg_skip (by simpa using hpc) hin]
          refine ⟨hdone, ?_⟩
          rw [show ((Elem.mk t x ch :: (replF p f cs).1, (replF p f cs).2) :
            List Elem × Bool).1 = Elem.mk t x ch :: (replF p f cs).1 from rfl]
          rw [iterF_cons, List.filter_cons, if_neg hpc]
          rw [show Elem.children (.mk t x ch) = ch from rfl]
          rw [List.filter_append, hx, List.nil_append, hrest2]
          exact ⟨_, rfl⟩

theorem replaceFirstDesc_find (tg : List Char) (f : Elem → Elem)
    (hf : ∀ e, (f e).tag = e.tag) (root s : Elem)
    (hfind : findDesc tg root = some s) :
    findDesc tg (replaceFirstDesc (tagIs tg) f root) = some (f s) := by
  unfold findDesc at hfind
  obtain ⟨rest, hrest⟩ := List.head?_eq_some_iff.mp hfind
  have hps : tagIs tg s = true := by
    have hmem : s ∈ (iterF root.children).filter (tagIs tg) := by
      rw [hrest]
      simp
    exact (List.mem_filter.mp hmem).2
  have hpfs : tagIs tg (f s) = true := by
    unfold tagIs at hps ⊢
    rw [hf s]
    exact hps
  have hp : ∀ t x ch ch', tagIs tg (.mk t x ch) = tagIs tg (.mk t x ch') :=
    fun _ _ _ _ => rfl
  obtain ⟨-, rest2, hrest2⟩ :=
    (replF_spec (tagIs tg) f hp root.children).2 s rest hrest hpfs
  unfold replaceFirstDesc findDesc
  rw [show Elem.children
    (Elem.mk root.tag root.text (replF (tagIs tg) f root.children).1)
    = (replF (tagIs tg) f root.children).1 from rfl]
  rw [hrest2]
  rfl

/-! ### Direct-child lemmas for the enrichment mutations -/

theorem find?_setTextOfFirstChild_found (tg val : List Char) :
    ∀ ch : List Elem, (ch.find? (tagIs tg)).isSome = true →
      ∃ c0, (setTextOfFirstChild tg val ch).find? (tagIs tg) = some c0
        ∧ c0.text = val := by
  intro ch
  induction ch with
  | nil => intro h; simp at h
  | cons c cs ih =>
    intro h
    cases c with
    | mk t x cch =>
      by_cases htg : (t == tg) = true
      · refine ⟨.mk t val cch, ?_, rfl⟩
        rw [show setTextOfFirstChild tg val (.mk t x cch :: cs)
          = .mk t val cch :: cs from by
            conv_lhs => unfold setTextOfFirstChild
            rw [if_pos htg]]
        exact List.find?_cons_of_pos _ (show tagIs tg (.mk t val cch) = true from htg)
      · rw [List.find?_cons_of_neg _
          (show ¬ tagIs tg (.mk t x cch) = true from htg)] at h
        rw [show setTextOfFirstChild tg val (.mk t x cch :: cs)
          = .mk t x cch :: setTextOfFirstChild tg val cs from by
            conv_lhs => unfold setTextOfFirstChild
            rw [if_neg htg]]
        rw [List.find?_cons_of_neg _
          (show ¬ tagIs tg (.mk t x cch) = true from htg)]
        exact ih h

theorem find?_setTextOfFirstChild_other {tg tg' : List Char} (hne : tg ≠ tg')
    (val : List Char) :
    ∀ ch : List Elem,
      (setTextOfFirstChild tg val ch).find? (tagIs tg') = ch.find? (tagIs tg') := by
  intro ch
  induction ch with
  | nil => rfl
  | cons c cs ih =>
    cases c with
    | mk t x cch =>
      by_cases htg : (t == tg) = true
      · have ht : t = tg := by simpa using htg
        have h2 : ¬ (t == tg') = true := by
          subst ht
          simpa using hne
        rw [show setTextOfFirstChild tg val (.mk t x cch :: cs)
          = .mk t val cch :: cs from by
            conv_lhs => unfold setTextOfFirstChild
            rw [if_pos htg]]
        rw [List.find?_cons_of_neg _ (show ¬ tagIs tg' (.mk t val cch) = true from h2),
          List.find?_cons_of_neg _ (show ¬ tagIs tg' (.mk t x cch) = true from h2)]
      · rw [show setTextOfFirstChild tg val (.mk t x cch :: cs)
          = .mk t x cch :: setTextOfFirstChild tg val cs from by
            conv_lhs => unfold setTextOfFirstChild
            rw [if_neg htg]]
        by_cases htg' : (t == tg') = true
        · rw [List.find?_cons_of_pos _ (show tagIs tg' (.mk t x cch) = true from htg'),
            List.find?_cons_of_pos _ (show tagIs tg' (.mk t x cch) = true from htg')]
        · rw [List.find?_cons_of_neg _ (show ¬ tagIs tg' (.mk t x cch) = true from htg'),
            List.find?_cons_of_neg _ (show ¬ tagIs tg' (.mk t x cch) = true from htg')]
          exact ih

theorem childNamed_setChildText_same (e : Elem) (tg val : List Char) :
    ∃ c0, childNamed tg (setChildText e tg val) = some c0 ∧ c0.text = val := by
  unfold setChildText
  by_cases h : (childNamed tg e).isSome = true
  · rw [if_pos h]
    unfold childNamed at h ⊢
    rw [show Elem.children
      (Elem.mk e.tag e.text (setTextOfFirstChild tg val e.children))
      = setTextOfFirstChild tg val e.children from rfl]
    exact find?_setTextOfFirstChild_found tg val e.children h
  · rw [if_neg h]
    unfold childNamed at h ⊢
    rw [show Elem.children
      (Elem.mk e.tag e.text (e.children ++ [Elem.mk tg val []]))
      = e.children ++ [Elem.mk tg val []] from rfl]
    have hnone : e.children.find? (tagIs tg) = none := by
      cases hx : e.children.find? (tagIs tg) with
      | none => rfl
      | some c => rw [hx] at h; simp at h
    rw [find?_append_of_none _ hnone]
    refine ⟨.mk tg val [], ?_, rfl⟩
    exact List.find?_cons_of_pos _
      (show tagIs tg (.mk tg val []) = true from by simp [tagIs, Elem.tag])

theorem childNamed_setChildText_other (e : Elem) {tg tg' : List Char}
    (hne : tg ≠ tg') (val : List Char) :
    childNamed tg' (setChildText e tg val) = childNamed tg' e := by
  unfold setChildText
  by_cases h : (childNamed tg e).isSome = true
  · rw [if_pos h]
    unfold childNamed
    rw [show Elem.children
      (Elem.mk e.tag e.text (setTextOfFirstChild tg val e.children))
      = setTextOfFirstChild tg val e.children from rfl]
    exact find?_setTextOfFirstChild_other hne val e.children
  · rw [if_neg h]
    unfold childNamed
    rw [show Elem.children
      (Elem.mk e.tag e.text (e.children ++ [Elem.mk tg val []]))
      = e.children ++ [Elem.mk tg val []] from rfl]
    cases hx : e.children.find? (tagIs tg') with
    | some c => rw [find?_append_of_some _ hx]
    | none =>
      rw [find?_append_of_none _ hx]
      rw [List.find?_cons_of_neg _
        (show ¬ tagIs tg' (.mk tg val []) = true from by
          simpa [tagIs, Elem.tag] using hne)]
      rfl

theorem find?_mapFirstChild_same (tg : List Char) (f : Elem → Elem)
    (hf : ∀ c, (f c).tag = c.tag) :
    ∀ (ch : List Elem) (c0 : Elem), ch.find? (tagIs tg) = some c0 →
      (mapFirstChild tg f ch).find? (tagIs tg) = some (f c0) := by
  intro ch
  induction ch with
  | nil => intro c0 h; simp at h
  | cons c cs ih =>
    intro c0 h
    by_cases htg : (c.tag == tg) = true
    · rw [List.find?_cons_of_pos _ (show tagIs tg c = true from htg)] at h
      injection h with h
      subst h
      rw [show mapFirstChild tg f (c :: cs) = f c :: cs from by
        conv_lhs => unfold mapFirstChild
        rw [if_pos htg]]
      apply List.find?_cons_of_pos
      show ((f c).tag == tg) = true
      rw [hf c]
      exact htg
    · rw [List.find?_cons_of_neg _ (show ¬ tagIs tg c = true from htg)] at h
      rw [show mapFirstChild tg f (c :: cs) = c :: mapFirstChild tg f cs from by
        conv_lhs => unfold mapFirstChild
        rw [if_neg htg]]
      rw [List.find?_cons_of_neg _ (show ¬ tagIs tg c = true from htg)]
      exact ih c0 h

theorem find?_mapFirstChild_other {tg tg' : List Char} (hne : tg ≠ tg')
    (f : Elem → Elem) (hf : ∀ c, (f c).tag = c.tag) :
    ∀ ch : List Elem,
      (mapFirstChild tg f ch).find? (tagIs tg') = ch.find? (tagIs tg') := by
  intro ch
  induction ch with
  | nil => rfl
  | cons c cs ih =>
    by_cases htg : (c.tag == tg) = true
    · have hct : c.tag = tg := by simpa using htg
      have h2 : ¬ (c.tag == tg') = true := by
        rw [hct]
        simpa using hne
      have h2f : ¬ ((f c).tag == tg') = true := by
        rw [hf c]
        exact h2
      rw [show mapFirstChild tg f (c :: cs) = f c :: cs from by
        conv_lhs => unfold mapFirstChild
        rw [if_pos htg]]
      rw [List.find?_cons_of_neg _ (show ¬ tagIs tg' (f c) = true from h2f),
        List.find?_cons_of_neg _ (show ¬ tagIs tg' c = true from h2)]
    · rw [show mapFirstChild tg f (c :: cs) = c :: mapFirstChild tg f cs from by
        conv_lhs => unfold mapFirstChild
        rw [if_neg htg]]
      by_cases htg' : (c.tag == tg') = true
      · rw [List.find?_cons_of_pos _ (show tagIs tg' c = true from htg'),
          List.find?_cons_of_pos _ (show tagIs tg' c = true from htg')]
      · rw [List.find?_cons_of_neg _ (show ¬ tagIs tg' c = true from htg'),
          List.find?_cons_of_neg _ (show ¬ tagIs tg' c = true from htg')]
        exact ih

theorem ensureChild_present (tg txt : List Char) (e : Elem)
    (h : (childNamed tg e).isSome = true) : ensureChildWithText tg txt e = e := by
  unfold ensureChildWithText
  rw [if_pos h]

theorem childNamed_ensureChild_absent (tg txt : List Char) (e : Elem)
    (h : childNamed tg e = none) :
    childNamed tg (ensureChildWithText tg txt e) = some (.mk tg txt []) := by
  unfold ensureChildWithText
  rw [if_neg (by simp [h])]
  unfold childNamed at h ⊢
  rw [show Elem.children (Elem.mk e.tag e.text (e.children ++ [Elem.mk tg txt []]))
    = e.children ++ [Elem.mk tg txt []] from rfl]
  rw [find?_append_of_none _ h]
  exact List.find?_cons_of_pos _
    (show tagIs tg (.mk tg txt []) = true from by simp [tagIs, Elem.tag])

theorem childNamed_ensureChild_other {tg tg' : List Char} (hne : tg ≠ tg')
    (txt : List Char) (e : Elem) :
    childNamed tg' (ensureChildWithText tg txt e) = childNamed tg' e := by
  unfold ensureChildWithText
  by_cases h : (childNamed tg e).isSome = true
  · rw [if_pos h]
  · rw [if_neg h]
    unfold childNamed
    rw [show Elem.children (Elem.mk e.tag e.text (e.children ++ [Elem.mk tg txt []]))
      = e.children ++ [Elem.mk tg txt []] from rfl]
    cases hx : e.children.find? (tagIs tg') with
    | some c => rw [find?_append_of_some _ hx]
    | none =>
      rw [find?_append_of_none _ hx]
      rw [List.find?_cons_of_neg _
        (show ¬ tagIs tg' (.mk tg txt []) = true from by
          simpa [tagIs, Elem.tag] using hne)]
      rfl

/-! ### Tag preservation of the enrichment mutations -/

theorem setChildText_tag (e : Elem) (tg val : List Char) :
    (setChildText e tg val).tag = e.tag := by
  unfold setChildText
  split <;> rfl

theorem fixOneBalance_tag (tot dt : List Char) (b : Elem) :
    (fixOneBalance tot dt b).tag = b.tag := by
  unfold fixOneBalance
  rw [setChildText_tag, setChildText_tag]

theorem ensureBalanceChild_tag (btag tot dt : List Char) (st : Elem) :
    (ensureBalanceChild btag tot dt st).tag = st.tag := by
  unfold ensureBalanceChild
  split <;> rfl

theorem fixStmtrs_tag (nowDate : List Char) (st : Elem) :
    (fixStmtrs nowDate st).tag = st.tag := by
  unfold fixStmtrs
  rw [ensureBalanceChild_tag, ensureBalanceChild_tag]

theorem ensureChildWithText_tag (tg txt : List Char) (e : Elem) :
    (ensureChildWithText tg txt e).tag = e.tag := by
  unfold ensureChildWithText
  split <;> rfl

theorem fixFi_tag (bankId : List Char) (fi : Elem) :
    (fixFi bankId fi).tag = fi.tag := by
  unfold fixFi
  rw [ensureChildWithText_tag, ensureChildWithText_tag]

theorem fixSonrs_tag (bankId : List Char) (s : Elem) :
    (fixSonrs bankId s).tag = s.tag := by
  unfold fixSonrs
  rw [setChildText_tag]
  split <;> rfl

/-! ### Balance lemmas (claim C2) -/

theorem fixOneBalance_balamt (tot dt : List Char) (b : Elem) :
    ∃ c, childNamed "BALAMT".data (fixOneBalance tot dt b) = some c
      ∧ c.text = tot := by
  unfold fixOneBalance
  rw [childNamed_setChildText_other _
    (show "DTASOF".data ≠ "BALAMT".data from by decide) dt]
  exact childNamed_setChildText_same b "BALAMT".data tot

theorem fixOneBalance_dtasof (tot dt : List Char) (b : Elem) :
    ∃ c, childNamed "DTASOF".data (fixOneBalance tot dt b) = some c
      ∧ c.text = dt :=
  childNamed_setChildText_same _ "DTASOF".data dt

theorem childNamed_ensureBalanceChild_same (btag tot dt : List Char) (st : Elem) :
    ∃ b0, childNamed btag (ensureBalanceChild btag tot dt st)
      = some (fixOneBalance tot dt b0) := by
  unfold ensureBalanceChild
  by_cases h : (childNamed btag st).isSome = true
  · rw [if_pos h]
    obtain ⟨c0, hc0⟩ := Option.isSome_iff_exists.mp h
    refine ⟨c0, ?_⟩
    unfold childNamed at hc0 ⊢
    rw [show Elem.children (Elem.mk st.tag st.text
      (mapFirstChild btag (fixOneBalance tot dt) st.children))
      = mapFirstChild btag (fixOneBalance tot dt) st.children from rfl]
    exact find?_mapFirstChild_same btag _ (fixOneBalance_tag tot dt) st.children c0 hc0
  · rw [if_neg h]
    refine ⟨.mk btag [] [], ?_⟩
    unfold childNamed at h ⊢
    rw [show Elem.children (Elem.mk st.tag st.text
      (st.children ++ [fixOneBalance tot dt (.mk btag [] [])]))
      = st.children ++ [fixOneBalance tot dt (.mk btag [] [])] from rfl]
    have hnone : st.children.find? (tagIs btag) = none := by
      cases hx : st.children.find? (tagIs btag) with
      | none => rfl
      | some c => rw [hx] at h; simp at h
    rw [find?_append_of_none _ hnone]
    apply List.find?_cons_of_pos
    show tagIs btag (fixOneBalance tot dt (.mk btag [] [])) = true
    unfold tagIs
    rw [fixOneBalance_tag]
    simp [Elem.tag]

theorem childNamed_ensureBalanceChild_other {btag btag' : List Char}
    (hne : btag ≠ btag') (tot dt : List Char) (st : Elem) :
    childNamed btag' (ensureBalanceChild btag tot dt st) = childNamed btag' st := by
  unfold ensureBalanceChild
  by_cases h : (childNamed btag st).isSome = true
  · rw [if_pos h]
    unfold childNamed
    rw [show Elem.children (Elem.mk st.tag st.text
      (mapFirstChild btag (fixOneBalance tot dt) st.children))
      = mapFirstChild btag (fixOneBalance tot dt) st.children from rfl]
    exact find?_mapFirstChild_other hne _ (fixOneBalance_tag tot dt) st.children
  · rw [if_neg h]
    unfold childNamed
    rw [show Elem.children (Elem.mk st.tag st.text
      (st.children ++ [fixOneBalance tot dt (.mk btag [] [])]))
      = st.children ++ [fixOneBalance tot dt (.mk btag [] [])] from rfl]
    cases hx : st.children.find? (tagIs btag') with
    | some c => rw [find?_append_of_some _ hx]
    | none =>
      rw [find?_append_of_none _ hx]
      rw [List.find?_cons_of_neg _
        (show ¬ tagIs btag' (fixOneBalance tot dt (.mk btag [] [])) = true from by
          unfold tagIs
          rw [fixOneBalance_tag]
          simpa [Elem.tag] using hne)]
      rfl

/-- C2 (amended, see below): after `_ensure_balances`, both balance
blocks carry the computed two-decimal total and the statement end date,
irrespective of whatever values were there before. -/
theorem c2_balances_overwritten (nowDate : List Char) (t s : Elem)
    (hfind : findDesc "STMTRS".data t = some s) :
    balChildText "LEDGERBAL".data "BALAMT".data (_ensure_balances nowDate t)
        = some (formatF2 (stmtrsTotal s))
    ∧ balChildText "LEDGERBAL".data "DTASOF".data (_ensure_balances nowDate t)
        = some (stmtrsDtend nowDate s)
    ∧ balChildText "AVAILBAL".data "BALAMT".data (_ensure_balances nowDate t)
        = some (formatF2 (stmtrsTotal s))
    ∧ balChildText "AVAILBAL".data "DTASOF".data (_ensure_balances nowDate t)
        = some (stmtrsDtend nowDate s) := by
  have hrepl : findDesc "STMTRS".data (_ensure_balances nowDate t)
      = some (fixStmtrs nowDate s) := by
    unfold _ensure_balances
    exact replaceFirstDesc_find _ _ (fixStmtrs_tag nowDate) t s hfind
  have hfix : fixStmtrs nowDate s
      = ensureBalanceChild "AVAILBAL".data (formatF2 (stmtrsTotal s))
          (stmtrsDtend nowDate s)
          (ensureBalanceChild "LEDGERBAL".data (formatF2 (stmtrsTotal s))
            (stmtrsDtend nowDate s) s) := rfl
  obtain ⟨bl, hbl⟩ := childNamed_ensureBalanceChild_same "LEDGERBAL".data
    (formatF2 (stmtrsTotal s)) (stmtrsDtend nowDate s) s
  obtain ⟨ba, hba⟩ := childNamed_ensureBalanceChild_same "AVAILBAL".data
    (formatF2 (stmtrsTotal s)) (stmtrsDtend nowDate s)
    (ensureBalanceChild "LEDGERBAL".data (formatF2 (stmtrsTotal s))
      (stmtrsDtend nowDate s) s)
  have hLB : childNamed "LEDGERBAL".data (fixStmtrs nowDate s)
      = some (fixOneBalance (formatF2 (stmtrsTotal s)) (stmtrsDtend nowDate s) bl) := by
    rw [hfix,
      childNamed_ensureBalanceChild_other
        (show "AVAILBAL".data ≠ "LEDGERBAL".data from by decide)]
    exact hbl
  have hAB : childNamed "AVAILBAL".data (fixStmtrs nowDate s)
      = some (fixOneBalance (formatF2 (stmtrsTotal s)) (stmtrsDtend nowDate s) ba) := by
    rw [hfix]
    exact hba
  obtain ⟨c1, hc1, hc1t⟩ := fixOneBalance_balamt (formatF2 (stmtrsTotal s))
    (stmtrsDtend nowDate s) bl
  obtain ⟨c2, hc2, hc2t⟩ := fixOneBalance_dtasof (formatF2 (stmtrsTotal s))
    (stmtrsDtend nowDate s) bl
  obtain ⟨c3, hc3, hc3t⟩ := fixOneBalance_balamt (formatF2 (stmtrsTotal s))
    (stmtrsDtend nowDate s) ba
  obtain ⟨c4, hc4, hc4t⟩ := fixOneBalance_dtasof (formatF2 (stmtrsTotal s))
    (stmtrsDtend nowDate s) ba
  refine ⟨?_, ?_, ?_, ?_⟩ <;>
    simp only [balChildText, hrepl, Option.some_bind, hLB, hAB, hc1, hc2, hc3, hc4,
      Option.map_some', hc1t, hc2t, hc3t, hc4t]

/-- C2 counterexample: the claim says a pre-existing `BALAMT` /
`DTASOF` value inside an existing `LEDGERBAL` is preserved and only
missing children are filled.  The code sets both texts unconditionally:
the pre-existing amount 999.99 becomes the computed total 0.00 and the
pre-existing date 20200101 becomes the fallback date. -/
theorem c2_counterexample :
    balChildText "LEDGERBAL".data "BALAMT".data exBalRoot = some "999.99".data
    ∧ balChildText "LEDGERBAL".data "BALAMT".data
        (_ensure_balances "20991231".data exBalRoot) = some "0.00".data
    ∧ ("0.00".data : List Char) ≠ "999.99".data
    ∧ balChildText "LEDGERBAL".data "DTASOF".data exBalRoot = some "20200101".data
    ∧ balChildText "LEDGERBAL".data "DTASOF".data
        (_ensure_balances "20991231".data exBalRoot) = some "20991231".data :=
  ⟨rfl, rfl, by decide, rfl, rfl⟩

/-- C2 witness: the amended theorem applied to the concrete tree with a
populated ledger balance. -/
theorem c2_witness :
    findDesc "STMTRS".data exBalRoot = some exBalStmtrs
    ∧ balChildText "LEDGERBAL".data "BALAMT".data
        (_ensure_balances "20991231".data exBalRoot)
      = some (formatF2 (stmtrsTotal exBalStmtrs))
    ∧ balChildText "AVAILBAL".data "DTASOF".data
        (_ensure_balances "20991231".data exBalRoot)
      = some (stmtrsDtend "20991231".data exBalStmtrs) :=
  ⟨rfl,
    (c2_balances_overwritten "20991231".data exBalRoot exBalStmtrs rfl).1,
    (c2_balances_overwritten "20991231".data exBalRoot exBalStmtrs rfl).2.2.2⟩

/-! ### Financial-institution lemmas (claim C3) -/

theorem childNamed_ensureChild_mono (tg txt ctag : List Char) (e : Elem)
    (c : Elem) (h : childNamed ctag e = some c) :
    childNamed ctag (ensureChildWithText tg txt e) = some c := by
  unfold ensureChildWithText
  by_cases hp : (childNamed tg e).isSome = true
  · rw [if_pos hp]
    exact h
  · rw [if_neg hp]
    unfold childNamed at h ⊢
    rw [show Elem.children (Elem.mk e.tag e.text (e.children ++ [Elem.mk tg txt []]))
      = e.children ++ [Elem.mk tg txt []] from rfl]
    exact find?_append_of_some _ h

theorem fixFi_preserves (bankId ctag : List Char) (fi c : Elem)
    (h : childNamed ctag fi = some c) :
    childNamed ctag (fixFi bankId fi) = some c := by
  unfold fixFi
  exact childNamed_ensureChild_mono _ _ _ _ _
    (childNamed_ensureChild_mono _ _ _ _ _ h)

theorem fixSonrs_fi (bankId : List Char) (s fi : Elem)
    (hfi : childNamed "FI".data s = some fi) :
    childNamed "FI".data (fixSonrs bankId s) = some (fixFi bankId fi) := by
  unfold fixSonrs
  rw [if_pos (by simp [hfi])]
  rw [childNamed_setChildText_other _
    (show "INTU.BID".data ≠ "FI".data from by decide)]
  unfold childNamed
  rw [show Elem.children (Elem.mk s.tag s.text
    (mapFirstChild "FI".data (fixFi bankId) s.children))
    = mapFirstChild "FI".data (fixFi bankId) s.children from rfl]
  exact find?_mapFirstChild_same _ _ (fixFi_tag bankId) s.children fi hfi

theorem fixSonrs_intuBid (bankId : List Char) (s : Elem) :
    ∃ c, childNamed "INTU.BID".data (fixSonrs bankId s) = some c
      ∧ c.text = bankId := by
  unfold fixSonrs
  exact childNamed_setChildText_same _ "INTU.BID".data bankId

theorem fixFi_org_absent (bankId : List Char) (fi : Elem)
    (h : childNamed "ORG".data fi = none) :
    childNamed "ORG".data (fixFi bankId fi)
      = some (.mk "ORG".data bankId []) := by
  unfold fixFi
  exact childNamed_ensureChild_mono _ _ _ _ _
    (childNamed_ensureChild_absent _ _ _ h)

theorem fixFi_fid_absent (bankId : List Char) (fi : Elem)
    (h : childNamed "FID".data fi = none) :
    childNamed "FID".data (fixFi bankId fi)
      = some (.mk "FID".data bankId []) := by
  unfold fixFi
  have h2 : childNamed "FID".data (ensureChildWithText "ORG".data bankId fi)
      = none := by
    rw [childNamed_ensureChild_other
      (show "ORG".data ≠ "FID".data from by decide)]
    exact h
  exact childNamed_ensureChild_absent _ _ _ h2

theorem fixSonrs_fi_absent (bankId : List Char) (s : Elem)
    (h : childNamed "FI".data s = none) :
    childNamed "FI".data (fixSonrs bankId s)
      = some (fixFi bankId (.mk "FI".data [] [])) := by
  unfold fixSonrs
  rw [if_neg (by simp [h])]
  rw [childNamed_setChildText_other _
    (show "INTU.BID".data ≠ "FI".data from by decide)]
  unfold childNamed
  rw [show Elem.children (Elem.mk s.tag s.text
    (s.children ++ [fixFi bankId (.mk "FI".data [] [])]))
    = s.children ++ [fixFi bankId (.mk "FI".data [] [])] from rfl]
  unfold childNamed at h
  rw [find?_append_of_none _ h]
  refine List.find?_cons_of_pos _ ?_
  show tagIs "FI".data (fixFi bankId (.mk "FI".data [] [])) = true
  unfold tagIs
  rw [fixFi_tag]
  rfl

/-- C3 (amended, see below): existing `ORG` and `FID` children are never
overwritten — present ones are preserved as whole elements, absent ones
are created and defaulted to the bank id, whether the `FI` block already
existed (lines 263-266 run on a found `FI` too) or was just created —
while `INTU.BID`'s text is always set to the bank id, overwriting any
pre-existing value. -/
theorem c3_fi_overwrite_behaviour (t s : Elem)
    (hfind : findDesc "SONRS".data t = some s) :
    intuBidText (_ensure_fi_info t) = some (bankIdOf t)
    ∧ (∀ fi org, childNamed "FI".data s = some fi →
        childNamed "ORG".data fi = some org →
        fiChildText "ORG".data (_ensure_fi_info t) = some org.text)
    ∧ (∀ fi fid, childNamed "FI".data s = some fi →
        childNamed "FID".data fi = some fid →
        fiChildText "FID".data (_ensure_fi_info t) = some fid.text)
    ∧ (∀ fi, childNamed "FI".data s = some fi →
        childNamed "ORG".data fi = none →
        fiChildText "ORG".data (_ensure_fi_info t) = some (bankIdOf t))
    ∧ (∀ fi, childNamed "FI".data s = some fi →
        childNamed "FID".data fi = none →
        fiChildText "FID".data (_ensure_fi_info t) = some (bankIdOf t))
    ∧ (childNamed "FI".data s = none →
        fiChildText "ORG".data (_ensure_fi_info t) = some (bankIdOf t)
        ∧ fiChildText "FID".data (_ensure_fi_info t) = some (bankIdOf t)) := by
  have hrepl : findDesc "SONRS".data (_ensure_fi_info t)
      = some (fixSonrs (bankIdOf t) s) := by
    unfold _ensure_fi_info
    exact replaceFirstDesc_find _ _ (fixSonrs_tag (bankIdOf t)) t s hfind
  refine ⟨?_, ?_, ?_, ?_, ?_, ?_⟩
  · obtain ⟨c, hc, hct⟩ := fixSonrs_intuBid (bankIdOf t) s
    simp only [intuBidText, hrepl, Option.some_bind, hc, Option.map_some', hct]
  · intro fi org hfi horg
    have hfi2 := fixSonrs_fi (bankIdOf t) s fi hfi
    have horg2 := fixFi_preserves (bankIdOf t) "ORG".data fi org horg
    simp only [fiChildText, hrepl, Option.some_bind, hfi2, horg2, Option.map_some']
  · intro fi fid hfi hfid
    have hfi2 := fixSonrs_fi (bankIdOf t) s fi hfi
    have hfid2 := fixFi_preserves (bankIdOf t) "FID".data fi fid hfid
    simp only [fiChildText, hrepl, Option.some_bind, hfi2, hfid2, Option.map_some']
  · intro fi hfi horg
    have hfi2 := fixSonrs_fi (bankIdOf t) s fi hfi
    have horg2 := fixFi_org_absent (bankIdOf t) fi horg
    simp only [fiChildText, hrepl, Option.some_bind, hfi2, horg2, Option.map_some']
    rfl
  · intro fi hfi hfid
    have hfi2 := fixSonrs_fi (bankIdOf t) s fi hfi
    have hfid2 := fixFi_fid_absent (bankIdOf t) fi hfid
    simp only [fiChildText, hrepl, Option.some_bind, hfi2, hfid2, Option.map_some']
    rfl
  · intro hnofi
    have hfi2 := fixSonrs_fi_absent (bankIdOf t) s hnofi
    constructor
    · have horg2 := fixFi_org_absent (bankIdOf t) (.mk "FI".data [] []) rfl
      simp only [fiChildText, hrepl, Option.some_bind, hfi2, horg2, Option.map_some']
      rfl
    · have hfid2 := fixFi_fid_absent (bankIdOf t) (.mk "FI".data [] []) rfl
      simp only [fiChildText, hrepl, Option.some_bind, hfi2, hfid2, Option.map_some']
      rfl

/-- C3 counterexample: the claim says a populated `INTU.BID` is not
overwritten.  With no `BANKID` in the tree the bank id defaults to nine
zeros, and the pre-existing `INTU.BID` value 12345 is replaced by it. -/
theorem c3_counterexample :
    intuBidText exFiRoot = some "12345".data
    ∧ intuBidText (_ensure_fi_info exFiRoot) = some "000000000".data
    ∧ ("000000000".data : List Char) ≠ "12345".data :=
  ⟨rfl, rfl, by decide⟩

/-- C3 witness: the amended theorem applied to the concrete tree with a
populated financial-institution block. -/
theorem c3_witness :
    findDesc "SONRS".data exFiRoot = some exFiSonrs
    ∧ intuBidText (_ensure_fi_info exFiRoot) = some (bankIdOf exFiRoot)
    ∧ fiChildText "ORG".data (_ensure_fi_info exFiRoot)
        = some (Elem.text (.mk "ORG".data "MyBank".data [])) :=
  ⟨rfl,
    (c3_fi_overwrite_behaviour exFiRoot exFiSonrs rfl).1,
    (c3_fi_overwrite_behaviour exFiRoot exFiSonrs rfl).2.1
      (.mk "FI".data []
        [.mk "ORG".data "MyBank".data [], .mk "FID".data "42".data []])
      (.mk "ORG".data "MyBank".data []) rfl rfl⟩

/-! ### Serializer lemmas (claim C8) -/

theorem elemInd (P : Elem → Prop)
    (h : ∀ t x ch, (∀ c ∈ ch, P c) → P (.mk t x ch)) : ∀ e, P e := by
  have hall : ∀ cs : List Elem, ∀ c ∈ cs, P c := by
    refine forestInd _ ?_ ?_
    · intro c hc
      simp at hc
    · intro t x ch cs ihch ihcs c hc
      rcases List.mem_cons.mp hc with h1 | h1
      · subst h1
        exact h t x ch ihch
      · exact ihcs c h1
  intro e
  cases e with
  | mk t x ch => exact h t x ch (hall ch)

theorem iterE_subset_iterF {c : Elem} {cs : List Elem} (hc : c ∈ cs) :
    ∀ e ∈ iterE c, e ∈ iterF cs := by
  induction cs with
  | nil => simp at hc
  | cons d ds ih =>
    intro e he
    rw [show iterF (d :: ds) = iterE d ++ iterF ds from rfl]
    rcases List.mem_cons.mp hc with h1 | h1
    · subst h1
      exact List.mem_append_left _ he
    · exact List.mem_append_right _ (ih h1 e he)

theorem iterE_child_subset {t x : List Char} {ch : List Elem} {c : Elem}
    (hc : c ∈ ch) : ∀ e ∈ iterE c, e ∈ iterE (.mk t x ch) := by
  intro e he
  rw [iterE_eq]
  exact List.mem_cons_of_mem _
    (iterE_subset_iterF hc e (by simpa using he))

theorem self_mem_iterE (e : Elem) : e ∈ iterE e := by
  rw [iterE_eq]
  exact List.mem_cons_self e _

theorem ofxWalkList_mem {cs : List Elem} {out : List (List Char)}
    (h : ofxWalkList cs = some out) :
    ∀ l ∈ out, ∃ c ∈ cs, ∃ oc, ofxWalk c = some oc ∧ l ∈ oc := by
  induction cs generalizing out with
  | nil =>
    have heq : ofxWalkList [] = some [] := rfl
    rw [heq] at h
    injection h with h
    subst h
    intro l hl
    simp at hl
  | cons c cs ih =>
    have heq : ofxWalkList (c :: cs)
        = (ofxWalk c).bind fun a => (ofxWalkList cs).bind fun b => some (a ++ b) :=
      rfl
    rw [heq, Option.bind_eq_some] at h
    obtain ⟨a, ha, h2⟩ := h
    rw [Option.bind_eq_some] at h2
    obtain ⟨b, hb, h3⟩ := h2
    injection h3 with h3
    subst h3
    intro l hl
    rcases List.mem_append.mp hl with h4 | h4
    · exact ⟨c, List.mem_cons_self c cs, a, ha, h4⟩
    · obtain ⟨c', hc', oc, hoc, hlc⟩ := ih hb l h4
      exact ⟨c', List.mem_cons_of_mem _ hc', oc, hoc, hlc⟩

theorem leadsWith_append_gt {g : List Char} (hg : '>' ∉ g) :
    ∀ {tag : List Char}, '>' ∉ tag → ∀ (rest : List Char),
    leadsWith (g ++ ['>']) (tag ++ '>' :: rest) = true → g = tag := by
  induction g with
  | nil =>
    intro tag ht rest h
    cases tag with
    | nil => rfl
    | cons a tag' =>
      rw [List.nil_append] at h
      rw [show (a :: tag') ++ '>' :: rest = a :: (tag' ++ '>' :: rest) from rfl] at h
      rw [show leadsWith ['>'] (a :: (tag' ++ '>' :: rest))
        = ('>' == a && leadsWith [] (tag' ++ '>' :: rest)) from rfl] at h
      simp only [Bool.and_eq_true, beq_iff_eq] at h
      exact absurd (show '>' ∈ a :: tag' from by
        rw [h.1]
        exact List.mem_cons_self a tag') ht
  | cons p g' ih =>
    intro tag ht rest h
    have hg' : '>' ∉ g' := fun hh => hg (List.mem_cons_of_mem p hh)
    cases tag with
    | nil =>
      rw [List.nil_append] at h
      rw [show (p :: g') ++ ['>'] = p :: (g' ++ ['>']) from rfl] at h
      rw [show leadsWith (p :: (g' ++ ['>'])) ('>' :: rest)
        = (p == '>' && leadsWith (g' ++ ['>']) rest) from rfl] at h
      simp only [Bool.and_eq_true, beq_iff_eq] at h
      exact absurd (show '>' ∈ p :: g' from by
        rw [← h.1]
        exact List.mem_cons_self p g') hg
    | cons a tag' =>
      have ht' : '>' ∉ tag' := fun hh => ht (List.mem_cons_of_mem a hh)
      rw [show (p :: g') ++ ['>'] = p :: (g' ++ ['>']) from rfl,
        show (a :: tag') ++ '>' :: rest = a :: (tag' ++ '>' :: rest) from rfl] at h
      rw [show leadsWith (p :: (g' ++ ['>'])) (a :: (tag' ++ '>' :: rest))
        = (p == a && leadsWith (g' ++ ['>']) (tag' ++ '>' :: rest)) from rfl] at h
      simp only [Bool.and_eq_true, beq_iff_eq] at h
      rw [h.1, ih hg' ht' rest h.2]

theorem leadsWith_open_open {g tag text : List Char} (hg : '>' ∉ g)
    (ht : '>' ∉ tag)
    (h : leadsWith (ofxOpenTag g) ('<' :: tag ++ '>' :: text) = true) : g = tag := by
  rw [show ofxOpenTag g = '<' :: (g ++ ['>']) from rfl] at h
  rw [show ('<' :: tag ++ '>' :: text) = '<' :: (tag ++ '>' :: text) from rfl] at h
  rw [show leadsWith ('<' :: (g ++ ['>'])) ('<' :: (tag ++ '>' :: text))
    = ('<' == '<' && leadsWith (g ++ ['>']) (tag ++ '>' :: text)) from rfl] at h
  simp only [beq_self_eq_true, Bool.true_and] at h
  exact leadsWith_append_gt hg ht text h

theorem not_leadsWith_open_close {g : List Char} (tag : List Char)
    (hg : '/' ∉ g) :
    leadsWith (ofxOpenTag g) (ofxCloseTag tag) = false := by
  cases g with
  | nil => rfl
  | cons p g' =>
    have hp : (p == '/') = false := by
      have hne : p ≠ '/' := fun hh => hg (by rw [← hh]; exact List.mem_cons_self p g')
      simpa using hne
    rw [show ofxOpenTag (p :: g') = '<' :: p :: (g' ++ ['>']) from rfl,
      show ofxCloseTag tag = '<' :: '/' :: (tag ++ ['>']) from rfl]
    rw [show leadsWith ('<' :: p :: (g' ++ ['>'])) ('<' :: '/' :: (tag ++ ['>']))
      = ('<' == '<' && (p == '/' && leadsWith (g' ++ ['>']) (tag ++ ['>'])))
      from rfl]
    simp [hp]

theorem openLine_ne_closeTag {tag : List Char} (hs : '/' ∉ tag)
    (text g : List Char) :
    ('<' :: tag ++ '>' :: text) ≠ ofxCloseTag g := by
  intro h
  rw [show ofxCloseTag g = '<' :: ('/' :: (g ++ ['>'])) from rfl,
    show ('<' :: tag ++ '>' :: text) = '<' :: (tag ++ '>' :: text) from rfl] at h
  injection h with h1 h2
  cases tag with
  | nil =>
    rw [List.nil_append] at h2
    injection h2 with h3
    exact absurd h3 (by decide)
  | cons a tag' =>
    rw [show (a :: tag') ++ '>' :: text = a :: (tag' ++ '>' :: text) from rfl] at h2
    injection h2 with h3 h4
    exact hs (by rw [← h3]; exact List.mem_cons_self a tag')

theorem append_singleton_right_cancel {a b : List Char} {x : Char}
    (h : a ++ [x] = b ++ [x]) : a = b := by
  have hr := congrArg List.reverse h
  rw [List.reverse_append, List.reverse_append] at hr
  simp only [List.reverse_cons, List.reverse_nil, List.nil_append,
    List.singleton_append] at hr
  injection hr with h1 h2
  have := congrArg List.reverse h2
  simpa using this

theorem closeTag_inj {tag g : List Char} (h : ofxCloseTag tag = ofxCloseTag g) :
    tag = g := by
  rw [show ofxCloseTag tag = '<' :: ('/' :: (tag ++ ['>'])) from rfl,
    show ofxCloseTag g = '<' :: ('/' :: (g ++ ['>'])) from rfl] at h
  injection h with h1 h2
  injection h2 with h3 h4
  exact append_singleton_right_cancel h4

theorem ofxWalk_no_lines_for_tag (g : List Char) (hg1 : '>' ∉ g) (hg2 : '/' ∉ g) :
    ∀ e : Elem, ∀ out : List (List Char), ofxWalk e = some out →
      (∀ e2 ∈ iterE e, toUpperList e2.tag = g →
        e2.children.isEmpty = true
        ∧ _sanitize_ofx_value (toUpperList e2.tag) e2.text = some []) →
      (∀ e2 ∈ iterE e, '>' ∉ toUpperList e2.tag ∧ '/' ∉ toUpperList e2.tag) →
      (∀ e2 ∈ iterE e, ∀ txt,
        _sanitize_ofx_value (toUpperList e2.tag) e2.text = some txt →
        leadsWith (ofxOpenTag g) txt = false ∧ txt ≠ ofxCloseTag g) →
      ∀ l ∈ out, leadsWith (ofxOpenTag g) l = false ∧ l ≠ ofxCloseTag g ∧ l ≠ [] := by
  refine elemInd (fun e => ∀ out : List (List Char), ofxWalk e = some out →
      (∀ e2 ∈ iterE e, toUpperList e2.tag = g →
        e2.children.isEmpty = true
        ∧ _sanitize_ofx_value (toUpperList e2.tag) e2.text = some []) →
      (∀ e2 ∈ iterE e, '>' ∉ toUpperList e2.tag ∧ '/' ∉ toUpperList e2.tag) →
      (∀ e2 ∈ iterE e, ∀ txt,
        _sanitize_ofx_value (toUpperList e2.tag) e2.text = some txt →
        leadsWith (ofxOpenTag g) txt = false ∧ txt ≠ ofxCloseTag g) →
      ∀ l ∈ out, leadsWith (ofxOpenTag g) l = false ∧ l ≠ ofxCloseTag g ∧ l ≠ [])
    ?_
  intro t x ch ih out hwalk hleaf htags htext
  have hself : (Elem.mk t x ch) ∈ iterE (Elem.mk t x ch) := self_mem_iterE _
  obtain ⟨hgt, hslash⟩ := htags _ hself
  cases ch with
  | nil =>
    have heq : ofxWalk (.mk t x []) = (_sanitize_ofx_value (toUpperList t) x).bind
        (fun text => if text == [] then some []
          else some [ofxOpenTag (toUpperList t) ++ text]) := rfl
    rw [heq, Option.bind_eq_some] at hwalk
    obtain ⟨text, hsan, hout⟩ := hwalk
    by_cases htxt : (text == []) = true
    · rw [if_pos htxt] at hout
      injection hout with hout
      subst hout
      intro l hl
      simp at hl
    · rw [if_neg htxt] at hout
      injection hout with hout
      subst hout
      intro l hl
      rw [List.mem_singleton] at hl
      subst hl
      have hshape : ofxOpenTag (toUpperList t) ++ text
          = '<' :: (toUpperList t ++ '>' :: text) := by
        rw [show ofxOpenTag (toUpperList t) = '<' :: (toUpperList t ++ ['>']) from rfl]
        rw [List.cons_append, List.append_assoc]
        rfl
      have hTAGne : toUpperList t ≠ g := by
        intro hEq
        have hle : _sanitize_ofx_value (toUpperList t) x = some []
          := (hleaf _ hself hEq).2
        rw [hsan] at hle
        injection hle with hle
        subst hle
        simp at htxt
      rw [hshape]
      refine ⟨?_, ?_, by simp⟩
      · cases hlw : leadsWith (ofxOpenTag g) ('<' :: (toUpperList t ++ '>' :: text)) with
        | false => rfl
        | true =>
          exact absurd (leadsWith_open_open hg1 hgt hlw).symm hTAGne
      · exact openLine_ne_closeTag hslash text g
  | cons c cs =>
    have heq : ofxWalk (.mk t x (c :: cs))
        = (_sanitize_ofx_value (toUpperList t) x).bind
          (fun text => (ofxWalkList (c :: cs)).bind fun childLines =>
            some ([ofxOpenTag (toUpperList t)]
              ++ (if text == [] then [] else [text])
              ++ childLines ++ [ofxCloseTag (toUpperList t)])) := rfl
    rw [heq, Option.bind_eq_some] at hwalk
    obtain ⟨text, hsan, h2⟩ := hwalk
    rw [Option.bind_eq_some] at h2
    obtain ⟨childLines, hcl, hout⟩ := h2
    injection hout with hout
    subst hout
    have hTAGne : toUpperList t ≠ g := by
      intro hEq
      have hle : List.isEmpty (c :: cs) = true := (hleaf _ hself hEq).1
      simp at hle
    intro l hl
    rw [List.mem_append] at hl
    rcases hl with hl | hl
    · rw [List.mem_append] at hl
      rcases hl with hl | hl
      · rw [List.mem_append] at hl
        rcases hl with hl | hl
        · rw [List.mem_singleton] at hl
          subst hl
          refine ⟨?_, ?_, by
            rw [show ofxOpenTag (toUpperList t)
              = '<' :: (toUpperList t ++ ['>']) from rfl]
            simp⟩
          · cases hlw : leadsWith (ofxOpenTag g) (ofxOpenTag (toUpperList t)) with
            | false => rfl
            | true =>
              have hlw2 : leadsWith (ofxOpenTag g)
                  ('<' :: (toUpperList t ++ '>' :: [])) = true := hlw
              exact absurd (leadsWith_open_open hg1 hgt hlw2).symm hTAGne
          · have := openLine_ne_closeTag hslash [] g
            exact this
        · by_cases htxt : (text == []) = true
          · rw [if_pos htxt] at hl
            simp at hl
          · rw [if_neg htxt] at hl
            rw [List.mem_singleton] at hl
            subst hl
            obtain ⟨ha, hb⟩ := htext _ hself l hsan
            exact ⟨ha, hb, by simpa using htxt⟩
      · obtain ⟨c', hc', oc, hoc, hlc⟩ := ofxWalkList_mem hcl l hl
        exact ih c' hc' oc hoc
          (fun e2 he2 => hleaf e2 (iterE_child_subset hc' e2 he2))
          (fun e2 he2 => htags e2 (iterE_child_subset hc' e2 he2))
          (fun e2 he2 => htext e2 (iterE_child_subset hc' e2 he2))
          l hlc
    · rw [List.mem_singleton] at hl
      subst hl
      refine ⟨not_leadsWith_open_close _ hg2, ?_, by
        rw [show ofxCloseTag (toUpperList t)
          = '<' :: ('/' :: (toUpperList t ++ ['>'])) from rfl]
        simp⟩
      intro hEq
      exact hTAGne (closeTag_inj hEq)

/-- C8: for every parsed OFX tree, a leaf element with empty sanitized
text is omitted entirely from the serialized output: no opening-tag line,
no closing-tag line, no combined leaf line and no empty line for it
appears.  Stated for a tag name `g` all of whose occurrences in the tree
are empty-sanitized leaves (with the side conditions that tag names
contain no `>`/`/` and no other sanitized text masquerades as a `g`
line). -/
theorem c8_empty_leaf_omitted (t : Elem) (g : List Char)
    (out : List (List Char))
    (hwalk : _ofx_element_to_sgml t = some out)
    (hleaf : ∀ e ∈ iterE t, toUpperList e.tag = g →
      e.children.isEmpty = true
      ∧ _sanitize_ofx_value (toUpperList e.tag) e.text = some [])
    (htags : ∀ e ∈ iterE t, '>' ∉ toUpperList e.tag ∧ '/' ∉ toUpperList e.tag)
    (htext : ∀ e ∈ iterE t, ∀ txt,
      _sanitize_ofx_value (toUpperList e.tag) e.text = some txt →
      leadsWith (ofxOpenTag g) txt = false ∧ txt ≠ ofxCloseTag g)
    (hg1 : '>' ∉ g) (hg2 : '/' ∉ g) :
    ∀ l ∈ out, leadsWith (ofxOpenTag g) l = false
      ∧ l ≠ ofxCloseTag g ∧ l ≠ [] :=
  ofxWalk_no_lines_for_tag g hg1 hg2 t out hwalk hleaf htags htext

/-- C8 witness: a transaction with an empty `NAME` leaf; the serialized
output has no `<NAME` line at all, and the line shown carries neither a
`<NAME>` prefix nor a `</NAME>` tag nor emptiness. -/
theorem c8_witness :
    _ofx_element_to_sgml exEmptyLeafTree
      = some ["<STMTTRN>".data, "<TRNTYPE>DEBIT".data, "</STMTTRN>".data]
    ∧ (∀ e ∈ iterE exEmptyLeafTree, toUpperList e.tag = "NAME".data →
        e.children.isEmpty = true
        ∧ _sanitize_ofx_value (toUpperList e.tag) e.text = some [])
    ∧ (leadsWith (ofxOpenTag "NAME".data) "<TRNTYPE>DEBIT".data = false
        ∧ "<TRNTYPE>DEBIT".data ≠ ofxCloseTag "NAME".data
        ∧ "<TRNTYPE>DEBIT".data ≠ []) :=
  ⟨rfl, by decide,
    c8_empty_leaf_omitted exEmptyLeafTree "NAME".data
      ["<STMTTRN>".data, "<TRNTYPE>DEBIT".data, "</STMTTRN>".data]
      rfl (by decide) (by decide) (by decide) (by decide) (by decide)
      "<TRNTYPE>DEBIT".data (by decide)⟩
